import Mathlib

/-!
Verification of the retrieval-and-fusion pipeline of an AI documentation
copilot (RAG service).  The Python sources are embedded shallowly:

* strings are `List Char` (`Str`); Python `str.strip` / `split` / `in` are
  modelled by executable functions below;
* Qdrant payload dictionaries become the `Payload` record whose fields are
  `Option`-valued (`payload.get(key, default)` is `Option.getD`);
* float scores become exact rationals `ℚ`;
* external collaborators (LLM, vector store, re-rank backend) are function
  parameters of the orchestrator definitions;
* Python's stable `list.sort(key=..., reverse=True)` is
  `List.insertionSort` with the "greater-or-equal score" relation, the
  canonical stable descending sort.
-/

/-- Characters of a Python string. -/
abbrev Str := List Char

/-- Whitespace characters recognised by Python's `str.strip()` (the ASCII
ones, which are the only ones the embedded texts use). -/
def isSpaceChar (c : Char) : Bool :=
  c == ' ' || c == '\n' || c == '\t' || c == '\r' || c == '\x0b' || c == '\x0c'

/-- Python `s.strip()`: drop leading and trailing whitespace. -/
def pyStrip (s : Str) : Str :=
  ((s.dropWhile isSpaceChar).reverse.dropWhile isSpaceChar).reverse

/-- Concatenation of a list of strings (Python `"".join`). -/
def cat {α : Type} (xs : List (List α)) : List α := xs.foldr (· ++ ·) []

/-- Find the first occurrence of `sep` in `s`; return the part before it and
the part after it (Python `s.find(sep)` splitting).  `none` when `sep` does
not occur as a substring. -/
def splitFirst (sep : Str) : Str → Option (Str × Str)
  | [] => if sep.isPrefixOf ([] : Str) then some ([], []) else none
  | c :: cs =>
    if sep.isPrefixOf (c :: cs) then some ([], (c :: cs).drop sep.length)
    else (splitFirst sep cs).map (fun p => (c :: p.1, p.2))

/-- Python substring test `needle in hay`. -/
def containsSub (needle hay : Str) : Bool := (splitFirst needle hay).isSome

/-- A Qdrant hit payload: the chunk metadata dictionary.  Every field is
optional because the store hands back an open map (`payload.get`). -/
structure Payload where
  text : Option Str
  source_file : Option Str
  chunk_index : Option Int
  source_id : Option Str
deriving DecidableEq

/-- A retrieval hit `(score, payload)`. -/
abbrev Hit := ℚ × Payload

/-- The fusion key of `reciprocal_rank_fusion`:
`payload.get("source_file", "") + payload.get("text", "")`. -/
def docKey (p : Payload) : Str := p.source_file.getD [] ++ p.text.getD []

/-- `RAGSource` response model (api_service/models/ask.py). -/
structure RAGSource where
  score : ℚ
  text : Str
  source_file : Option Str
  chunk_index : Option Int
  source_id : Option Str
deriving DecidableEq

/-- `AskResponse` response model (api_service/models/ask.py). -/
structure AskResponse where
  answer : Str
  sources : List RAGSource
  used_rag : Bool
deriving DecidableEq

/-- A chat message `{"role": ..., "content": ...}`. -/
structure Msg where
  role : Str
  content : Str
deriving DecidableEq

/-! ## Fusion Engine (api_service/services/rag.py, `reciprocal_rank_fusion`) -/

/-- `SEARCH_K = 20` (candidates per retrieval mode). -/
def SEARCH_K : ℕ := 20

/-- `RERANK_N = 5` (final context size). -/
def RERANK_N : ℕ := 5

/-- `RRF_K = 60` (damping constant of Reciprocal Rank Fusion). -/
def RRF_K : ℕ := 60

/-- The RRF contribution `1.0 / (k + rank)` of a hit at 1-based `rank`. -/
def rrfContrib (k rank : ℕ) : ℚ := 1 / ((k + rank : ℕ) : ℚ)

/-- One aggregation entry of the fusion loop: a key of `fused_scores`
together with its accumulated score and the payload `document_map` holds for
it (the most recently seen payload with this key). -/
structure Entry where
  key : Str
  score : ℚ
  payload : Payload

/-- One pass of the fusion loop body for a single hit: Python's
`document_map[doc_key] = payload; fused_scores[doc_key] += contrib`.
A `defaultdict` keeps first-insertion order, so a new key is appended at the
end, an existing key is updated in place (payload overwritten, score
accumulated). -/
def upsert (key : Str) (contrib : ℚ) (pl : Payload) : List Entry → List Entry
  | [] => [⟨key, contrib, pl⟩]
  | e :: es =>
    if e.key = key then ⟨key, e.score + contrib, pl⟩ :: es
    else e :: upsert key contrib pl es

/-- The inner loop `for rank, (score, payload) in enumerate(ranked_list, start=1)`. -/
def procList (k : ℕ) : ℕ → List Hit → List Entry → List Entry
  | _, [], es => es
  | rank, (_, p) :: hs, es =>
    procList k (rank + 1) hs (upsert (docKey p) (rrfContrib k rank) p es)

/-- The outer loop `for ranked_list in ranked_lists`. -/
def rrfEntries (k : ℕ) (ranked_lists : List (List Hit)) : List Entry :=
  ranked_lists.foldl (fun es l => procList k 1 l es) []

/-- Python `final_results.sort(key=lambda x: x[0], reverse=True)`:
the stable sort by score descending. -/
def sortByScoreDesc (l : List Hit) : List Hit :=
  l.insertionSort (fun a b => b.1 ≤ a.1)

/-- `reciprocal_rank_fusion(ranked_lists, k)` (rag.py lines 56-77). -/
def reciprocal_rank_fusion (ranked_lists : List (List Hit)) (k : ℕ) : List Hit :=
  sortByScoreDesc ((rrfEntries k ranked_lists).map (fun e => (e.score, e.payload)))

/-! ### Specification-side formulation of fusion (for claim C1).

The spec says: each hit of each input list contributes `1/(k + rank)` with
`rank` its 1-based position; contributions of hits sharing a FusionKey are
summed across all lists; the deduplicated hits are sorted by total score
descending, ties broken by first-seen insertion order. -/

/-- A single scored occurrence of a fusion key. -/
structure Occ where
  key : Str
  contrib : ℚ
  payload : Payload

/-- Attach 1-based ranks to a list (`enumerate(..., start=r)`). -/
def rankFrom {α : Type} (r : ℕ) : List α → List (ℕ × α)
  | [] => []
  | x :: xs => (r, x) :: rankFrom (r + 1) xs

/-- All key occurrences of all input lists, in traversal order, each carrying
its spec contribution `1/(k + rank)`. -/
def specOccs (k : ℕ) (ranked_lists : List (List Hit)) : List Occ :=
  cat (ranked_lists.map (fun l =>
    (rankFrom 1 l).map (fun rh => ⟨docKey rh.2.2, rrfContrib k rh.1, rh.2.2⟩)))

/-- The distinct fusion keys in first-seen order (`seen` are keys already
emitted earlier). -/
def dedupKeys (seen : List Str) : List Occ → List Str
  | [] => []
  | o :: os =>
    if o.key ∈ seen then dedupKeys seen os
    else o.key :: dedupKeys (o.key :: seen) os

/-- Total fused score of a key: the sum of the contributions of all its
occurrences. -/
def totalScore (key : Str) : List Occ → ℚ
  | [] => 0
  | o :: os => (if o.key = key then o.contrib else 0) + totalScore key os

/-- The payload of the last occurrence of `key` (default `d` when `key`
never occurs). -/
def lastPayloadD (d : Payload) (key : Str) : List Occ → Payload
  | [] => d
  | o :: os => lastPayloadD (if o.key = key then o.payload else d) key os

/-- Payload with every field absent. -/
def emptyPayload : Payload := ⟨none, none, none, none⟩

/-- The fusion operation as the specification words it: one deduplicated hit
per fusion key in first-seen order, scored by the sum of all of its
`1/(k + rank)` contributions, sorted by total score descending with ties
broken by first-seen order (stable sort). -/
def rrf_spec (ranked_lists : List (List Hit)) (k : ℕ) : List Hit :=
  sortByScoreDesc ((dedupKeys [] (specOccs k ranked_lists)).map
    (fun key => (totalScore key (specOccs k ranked_lists),
                 lastPayloadD emptyPayload key (specOccs k ranked_lists))))

/-! ## Context Assembler (rag.py, `build_context_from_hits`) -/

/-- The `RAGSource(...)` constructed for an included hit (rag.py lines 42-50):
its `text` is the payload text (present and non-empty on the inclusion path),
the remaining metadata fields are `payload.get(...)` with no default. -/
def mkRAGSource (score : ℚ) (p : Payload) : RAGSource :=
  ⟨score, p.text.getD [], p.source_file, p.chunk_index, p.source_id⟩

/-- The assembly loop of `build_context_from_hits` (rag.py lines 29-50):
walks the hits with the running length `current_len`, skipping hits with
empty (or missing) text, `break`-ing as soon as `current_len` plus the next
`text + "\n\n"` would exceed `max_chars`, and collecting the kept parts and
their `RAGSource`s. -/
def buildGo (max_chars : ℕ) : List Hit → ℕ → List Str × List RAGSource
  | [], _ => ([], [])
  | (score, payload) :: rest, current_len =>
    let text := payload.text.getD []
    if text = [] then buildGo max_chars rest current_len
    else
      let addition := text ++ ['\n', '\n']
      if max_chars < current_len + addition.length then ([], [])
      else
        let r := buildGo max_chars rest (current_len + addition.length)
        (addition :: r.1, mkRAGSource score payload :: r.2)

/-- Python `"\n".join(parts)`. -/
def joinNL : List Str → Str
  | [] => []
  | [p] => p
  | p :: q :: ps => p ++ '\n' :: joinNL (q :: ps)

/-- `build_context_from_hits(hits, max_chars)` (rag.py lines 19-53):
`context = "\n".join(context_parts).strip()`. -/
def build_context_from_hits (hits : List Hit) (max_chars : ℕ := 2000) :
    Str × List RAGSource :=
  let r := buildGo max_chars hits 0
  (pyStrip (joinNL r.1), r.2)

/-- Specification-side greedy selection (for claim C2): the hits whose text
is actually concatenated into the context, namely the non-empty-text hits
taken in rank order while `used + len(text) + 2 ≤ max_chars`, stopping
wholesale at the first hit that would overflow the budget. -/
def includedHits (max_chars : ℕ) (used : ℕ) : List Hit → List Hit
  | [] => []
  | (score, payload) :: rest =>
    let t := payload.text.getD []
    if t = [] then includedHits max_chars used rest
    else if max_chars < used + t.length + 2 then []
    else (score, payload) :: includedHits max_chars (used + t.length + 2) rest

/-- Sum of the lengths of a list of strings. -/
def lensSum : List Str → ℕ
  | [] => 0
  | s :: ss => s.length + lensSum ss

/-! ## Re-ranker Adapter (api_service/clients/reranker_client.py) -/

/-- Python truthiness test `not self._settings.cohere_api_key`:
true when the key is `None` or the empty string. -/
def keyFalsy : Option Str → Bool
  | none => true
  | some s => s.isEmpty

/-- `RerankerClient.rerank(query, documents, top_n)`.  The Cohere backend is
an external collaborator passed as a function returning `(index,
relevance_score)` pairs; its network call can fail only outside this model.
With a falsy API key the adapter is the pass-through truncation
`documents[:top_n]`.  On the backend path each returned index is mapped back
to the original payload (`documents[rank.index][1]`); an out-of-range index
(a Python `IndexError`) makes the result `none`. -/
def RerankerClient.rerank (cohere_api_key : Option Str)
    (backend : Str → List Str → ℕ → List (ℕ × ℚ))
    (query : Str) (documents : List Hit) (top_n : ℕ) : Option (List Hit) :=
  if keyFalsy cohere_api_key then some (documents.take top_n)
  else
    (backend query (documents.map (fun d => d.2.text.getD [])) top_n).mapM
      (fun r => (documents.get? r.1).map (fun d => (r.2, d.2)))

/-! ## RAG Orchestrator (rag.py, `answer_with_rag` / `stream_answer_with_rag`)

The external collaborators (embedding, dense search, sparse search, re-rank,
LLM) are parameters: the two retrieval results are the `dense` and `sparse`
hit lists, the re-ranker is a function of `(question, documents, top_n)` and
the generator a function of the message list. -/

/-- The fallback messages of the no-hits branch (rag.py lines 109-112). -/
def noHitsMessages (question : Str) : List Msg :=
  [⟨"system".toList, "You are a helpful assistant. No documents found.".toList⟩,
   ⟨"user".toList, question⟩]

/-- The constrained system prompt of the has-hits branch (rag.py 119-124). -/
def ragSystemPrompt : Str :=
  ("You are an AI assistant that answers questions using the provided context.\n" ++
   "Use ONLY the context to answer. If the context does not contain the answer, say " ++
   "\x27I don\x27t know based on the provided documents.\x27\n" ++
   "Cite relevant points in your own words; do not invent sources.").toList

/-- The messages of the has-hits branch, with the user prompt
`f"Question:\n{question}\n\nContext:\n{context}"` (rag.py 125-129). -/
def ragMessages (question context : Str) : List Msg :=
  [⟨"system".toList, ragSystemPrompt⟩,
   ⟨"user".toList,
    "Question:\n".toList ++ question ++ "\n\nContext:\n".toList ++ context⟩]

/-- `answer_with_rag` (rag.py lines 80-132), from the two retrieval results
onwards: fuse, then either the no-hits fallback branch or
re-rank → assemble context → generate. -/
def answer_with_rag (question : Str) (llmChat : List Msg → Str)
    (dense sparse : List Hit)
    (rerankFn : Str → List Hit → ℕ → List Hit)
    (top_k : ℕ := RERANK_N) : AskResponse :=
  let hits := reciprocal_rank_fusion [dense, sparse] RRF_K
  if hits = [] then ⟨llmChat (noHitsMessages question), [], false⟩
  else
    let final_hits := rerankFn question hits top_k
    let r := build_context_from_hits final_hits
    ⟨llmChat (ragMessages question r.1), r.2, true⟩

/-- One NDJSON line of the streaming pipeline: either the `Sources` record
or a `ContentToken` record. -/
inductive StreamEvent where
  | sources (data : List RAGSource)
  | content (token : Str)
deriving DecidableEq

/-- Whether an event is the `Sources` record. -/
def isSourcesEvent : StreamEvent → Bool
  | .sources _ => true
  | .content _ => false

/-- `stream_answer_with_rag` (rag.py lines 135-203), from the two retrieval
results onwards; the generator is a function from the messages to its token
stream.  Note the has-hits branch yields the sources line only under
`if sources:` (rag.py line 185). -/
def stream_answer_with_rag (question : Str) (llmTokens : List Msg → List Str)
    (dense sparse : List Hit)
    (rerankFn : Str → List Hit → ℕ → List Hit)
    (top_k : ℕ := RERANK_N) : List StreamEvent :=
  let hits := reciprocal_rank_fusion [dense, sparse] RRF_K
  if hits = [] then
    StreamEvent.sources [] ::
      (llmTokens (noHitsMessages question)).map StreamEvent.content
  else
    let final_hits := rerankFn question hits top_k
    let r := build_context_from_hits final_hits
    (if r.2 ≠ [] then [StreamEvent.sources r.2] else []) ++
      (llmTokens (ragMessages question r.1)).map StreamEvent.content

/-! ## Chunker (ingestion_service/chunking.py) -/

/-- `SEPARATORS = ["\n\n", "\n", ". ", " ", ""]`. -/
def SEPARATORS : List Str := [['\n', '\n'], ['\n'], ['.', ' '], [' '], []]

/-- Python `text_segment.split(sep)` for a non-empty `sep`: repeatedly split
at the leftmost occurrence.  Structured with explicit fuel so that it
computes by kernel reduction; every recursive step strictly shortens the
remaining string, so any `fuel > length` is enough (see
`splitSepF_fuel_irrel`). -/
def splitSepF (fuel : ℕ) (sep : Str) (s : Str) : List Str :=
  match fuel with
  | 0 => [s]
  | fuel + 1 =>
    match splitFirst sep s with
    | none => [s]
    | some (b, a) => b :: splitSepF fuel sep a

/-- Python `s.split(sep)` (for the non-empty separators the chunker uses). -/
def splitSep (sep : Str) (s : Str) : List Str := splitSepF (s.length + 1) sep s

/-- Re-attach the separator to every part but the last
(chunking.py lines 40-45). -/
def attachSep (sep : Str) : List Str → List Str
  | [] => []
  | [p] => [p]
  | p :: q :: ps => (p ++ sep) :: attachSep sep (q :: ps)

/-- `_split_atomic(text_segment, separators)` (chunking.py lines 21-53):
with no separators left return the segment whole; `""` splits into single
characters; a separator not occurring in the segment is skipped; otherwise
split, re-attach the separator, and recurse with the remaining separators
into any piece still longer than `max_chars`. -/
def splitAtomic (max_chars : ℕ) : List Str → Str → List Str
  | [], seg => [seg]
  | sep :: next_seps, seg =>
    if sep = [] then seg.map (fun c => [c])
    else if (splitFirst sep seg).isNone then splitAtomic max_chars next_seps seg
    else
      cat ((attachSep sep (splitSep sep seg)).map (fun part =>
        if max_chars < part.length then splitAtomic max_chars next_seps part
        else [part]))

/-- The backtracking loop for the overlap (chunking.py lines 75-84): walk
`reversed(current_buffer)` (the argument list), prepending pieces to the
front of the accumulator while the accumulated length is below `overlap`,
then stop.  Returns the new buffer and its accumulated length. -/
def overlapSeed (overlap : ℕ) : List Str → ℕ → List Str → List Str × ℕ
  | [], len, acc => (acc, len)
  | p :: ps, len, acc =>
    if len < overlap then overlapSeed overlap ps (len + p.length) (p :: acc)
    else (acc, len)

/-- The merge loop of `chunk_text` (chunking.py lines 59-97): accumulate
pieces into `current_buffer`; when the next piece would exceed `max_chars`
(and the buffer is non-empty) emit the stripped buffer (if non-empty),
re-seed the buffer with the overlap backtrack, and continue; finally flush
the remaining buffer. -/
def mergeGo (max_chars overlap : ℕ) :
    List Str → List Str → ℕ → List Str
  | [], buffer, _ =>
    let c := pyStrip (cat buffer)
    if c = [] then [] else [c]
  | piece :: pieces, buffer, current_len =>
    if max_chars < current_len + piece.length ∧ buffer ≠ [] then
      let c := pyStrip (cat buffer)
      let sl := overlapSeed overlap buffer.reverse 0 []
      let tail := mergeGo max_chars overlap pieces (sl.1 ++ [piece]) (sl.2 + piece.length)
      if c = [] then tail else c :: tail
    else mergeGo max_chars overlap pieces (buffer ++ [piece]) (current_len + piece.length)

/-- `chunk_text(text, max_chars, overlap)` (chunking.py lines 8-99). -/
def chunk_text (text : Str) (max_chars : ℕ := 1000) (overlap : ℕ := 200) :
    List Str :=
  if text = [] then []
  else mergeGo max_chars overlap (splitAtomic max_chars SEPARATORS text) [] 0

/-- Ghost variant of the merge loop (for claim C5): runs the same recursion
but records, for every chunk, the buffer it was emitted from together with
the suffix of that buffer consisting of the pieces appended after the last
overlap re-seed (its "new", non-overlap content). -/
def groupsGo (max_chars overlap : ℕ) :
    List Str → List Str → List Str → List (List Str × List Str)
  | [], buffer, newPieces => [(buffer, newPieces)]
  | piece :: pieces, buffer, newPieces =>
    if max_chars < (cat buffer).length + piece.length ∧ buffer ≠ [] then
      let sl := overlapSeed overlap buffer.reverse 0 []
      (buffer, newPieces) ::
        groupsGo max_chars overlap pieces (sl.1 ++ [piece]) [piece]
    else groupsGo max_chars overlap pieces (buffer ++ [piece]) (newPieces ++ [piece])

/-! ## Concrete sample data used by witnesses and counterexamples -/

/-- A payload with the given source file and text. -/
def samplePayload (sf t : Str) : Payload := ⟨some t, some sf, none, none⟩

/-- A payload carrying only a text. -/
def textPayload (t : Str) : Payload := ⟨some t, none, none, none⟩

/-- Four hits with one-character texts; under `max_chars = 12` the assembly
loop admits all four (accounting `4 * 3 = 12`), yet the joined and stripped
context has 13 characters. -/
def budgetHits : List Hit :=
  [(1, textPayload ['a']), (1, textPayload ['b']),
   (1, textPayload ['c']), (1, textPayload ['d'])]

/-- A hit whose payload text is present but empty. -/
def emptyTextHit : Hit := (9/10, ⟨some [], some ['f'], none, none⟩)

/-! ## Auxiliaries for the fusion proofs -/

/-- One fold step of the fusion loop over a key occurrence. -/
def upsertOcc (es : List Entry) (o : Occ) : List Entry :=
  upsert o.key o.contrib o.payload es

/-- The effect of folding a batch of occurrences over an existing entry: its
score grows by its key's total contribution and its payload becomes its
key's last payload (unchanged when the key never occurs). -/
def applyOcc (occs : List Occ) (e : Entry) : Entry :=
  ⟨e.key, e.score + totalScore e.key occs, lastPayloadD e.payload e.key occs⟩

/-- The entries the fold creates for keys not in `seen`, in first-seen
order, each carrying its remaining total score and last payload. -/
def buildNew (seen : List Str) : List Occ → List Entry
  | [] => []
  | o :: os =>
    if o.key ∈ seen then buildNew seen os
    else
      ⟨o.key, o.contrib + totalScore o.key os, lastPayloadD o.payload o.key os⟩ ::
        buildNew (o.key :: seen) os

instance : IsTotal Hit (fun a b => b.1 ≤ a.1) := ⟨fun a b => le_total b.1 a.1⟩

instance : IsTrans Hit (fun a b => b.1 ≤ a.1) :=
  ⟨fun _ _ _ h1 h2 => le_trans h2 h1⟩

/-! # Theorems -/

/-! ## Claim C8: the fusion key derivation -/

/-- C8 (corrected): the FusionKey derivation is NOT injective on the pair
`(sourceFile, text)` — the key concatenates the two fields with no
delimiter, so `("ab", "c")` and `("a", "bc")` derive the same key while
their `sourceFile` (and `text`) fields differ. -/
theorem docKey_not_injective_counterexample :
    docKey ⟨some ['c'], some ['a', 'b'], none, none⟩ =
      docKey ⟨some ['b', 'c'], some ['a'], none, none⟩ ∧
    ¬((some ['a', 'b'] : Option Str) = some ['a'] ∧
      (some ['c'] : Option Str) = some ['b', 'c']) := by
  decide

/-- C8 (amended): equal FusionKeys identify the same chunk once the source
file agrees: two payloads with equal derived keys and equal `sourceFile`
fields (as defaulted strings) have equal `text` fields (as defaulted
strings). -/
theorem docKey_inj_of_source_file_eq (p q : Payload)
    (hkey : docKey p = docKey q)
    (hsf : p.source_file.getD [] = q.source_file.getD []) :
    p.text.getD [] = q.text.getD [] := by
  unfold docKey at hkey
  rw [hsf] at hkey
  exact List.append_cancel_left hkey

/-- Witness for `docKey_inj_of_source_file_eq` at two concrete payloads that
agree on key and source file but differ elsewhere. -/
theorem docKey_inj_of_source_file_eq_witness :
    docKey ⟨some ['c'], some ['a', 'b'], none, none⟩ =
      docKey ⟨some ['c'], some ['a', 'b'], none, some ['x']⟩ ∧
    (Payload.mk (some ['c']) (some ['a', 'b']) none none).source_file.getD [] =
      (Payload.mk (some ['c']) (some ['a', 'b']) none (some ['x'])).source_file.getD [] ∧
    (Payload.mk (some ['c']) (some ['a', 'b']) none none).text.getD [] =
      (Payload.mk (some ['c']) (some ['a', 'b']) none (some ['x'])).text.getD [] :=
  ⟨by decide, by decide,
   docKey_inj_of_source_file_eq _ _ (by decide) (by decide)⟩

/-! ## Claim C6: re-ranker pass-through fallback -/

/-- C6 (confirmed): with no configured backend key (`None` or empty), for
every query, document list and `top_n`, the adapter returns (it cannot
raise: the result is `some`) exactly the first `min(top_n, len(documents))`
documents, a prefix of the input with order and scores unchanged. -/
theorem rerank_no_backend_passthrough (cohere_api_key : Option Str)
    (backend : Str → List Str → ℕ → List (ℕ × ℚ))
    (query : Str) (documents : List Hit) (top_n : ℕ)
    (hkey : keyFalsy cohere_api_key = true) :
    RerankerClient.rerank cohere_api_key backend query documents top_n =
      some (documents.take top_n) ∧
    (documents.take top_n).length = min top_n documents.length ∧
    documents.take top_n <+: documents := by
  refine ⟨?_, by simp, List.take_prefix _ _⟩
  unfold RerankerClient.rerank
  rw [hkey]
  simp

/-- Witness for `rerank_no_backend_passthrough`: a `None` key, three
documents, `top_n = 2`. -/
theorem rerank_no_backend_passthrough_witness :
    keyFalsy none = true ∧
    (RerankerClient.rerank none (fun _ _ _ => []) ['q'] budgetHits 2 =
      some (budgetHits.take 2) ∧
    (budgetHits.take 2).length = min 2 budgetHits.length ∧
    budgetHits.take 2 <+: budgetHits) :=
  ⟨by decide,
   rerank_no_backend_passthrough none (fun _ _ _ => []) ['q'] budgetHits 2 (by decide)⟩

/-! ## Claim C2: context assembler -/

/-- The assembly loop keeps exactly the greedily included hits: its parts
are their texts plus the paragraph separator, its sources their
`RAGSource`s, in rank order. -/
theorem buildGo_eq_includedHits (max_chars : ℕ) (hits : List Hit) (used : ℕ) :
    buildGo max_chars hits used =
      ((includedHits max_chars used hits).map
        (fun h => h.2.text.getD [] ++ ['\n', '\n']),
       (includedHits max_chars used hits).map (fun h => mkRAGSource h.1 h.2)) := by
  induction hits generalizing used with
  | nil => simp [buildGo, includedHits]
  | cons hd rest ih =>
    obtain ⟨s, p⟩ := hd
    have hlen : (p.text.getD [] ++ ['\n', '\n']).length = (p.text.getD []).length + 2 := by
      simp
    by_cases ht : p.text.getD [] = []
    · simp [buildGo, includedHits, ht, ih]
    · by_cases hover : max_chars < used + ((p.text.getD []).length + 2)
      · have hover2 : max_chars < used + (p.text.getD [] ++ ['\n', '\n']).length := by
          rw [hlen]; omega
        simp only [buildGo, includedHits]
        rw [if_neg ht, if_pos hover2, if_neg ht, if_pos (by omega : max_chars < used + (p.text.getD []).length + 2)]
        simp
      · have hover2 : ¬ max_chars < used + (p.text.getD [] ++ ['\n', '\n']).length := by
          rw [hlen]; omega
        simp only [buildGo, includedHits]
        rw [if_neg ht, if_neg hover2, if_neg ht,
          if_neg (by omega : ¬ max_chars < used + (p.text.getD []).length + 2)]
        rw [ih]
        simp [hlen, Nat.add_assoc]

/-- Every hit the assembler includes has a non-empty text. -/
theorem includedHits_text_ne (max_chars : ℕ) (hits : List Hit) (used : ℕ) :
    ∀ h ∈ includedHits max_chars used hits, h.2.text.getD [] ≠ [] := by
  induction hits generalizing used with
  | nil => simp [includedHits]
  | cons hd rest ih =>
    obtain ⟨s, p⟩ := hd
    intro h hmem
    by_cases ht : p.text.getD [] = []
    · exact ih used h (by simpa [includedHits, ht] using hmem)
    · by_cases hover : max_chars < used + (p.text.getD []).length + 2
      · simp [includedHits, ht, hover] at hmem
      · simp only [includedHits] at hmem
        rw [if_neg ht, if_neg hover] at hmem
        rcases List.mem_cons.mp hmem with h1 | h2
        · subst h1; exact ht
        · exact ih _ h h2

/-- The loop's own accounting: the total length of the kept parts plus the
running length stays within the budget. -/
theorem buildGo_budget (max_chars : ℕ) (hits : List Hit) (used : ℕ)
    (h : used ≤ max_chars) :
    lensSum (buildGo max_chars hits used).1 + used ≤ max_chars := by
  induction hits generalizing used with
  | nil => simpa [buildGo, lensSum] using h
  | cons hd rest ih =>
    obtain ⟨s, p⟩ := hd
    by_cases ht : p.text.getD [] = []
    · simpa [buildGo, ht] using ih used h
    · have hlen : (p.text.getD [] ++ ['\n', '\n']).length = (p.text.getD []).length + 2 := by
        simp
      by_cases hover : max_chars < used + (p.text.getD [] ++ ['\n', '\n']).length
      · simp only [buildGo]
        rw [if_neg ht, if_pos hover]
        simpa [lensSum] using h
      · have hle : used + (p.text.getD [] ++ ['\n', '\n']).length ≤ max_chars := by omega
        have hrec := ih (used + (p.text.getD [] ++ ['\n', '\n']).length) hle
        simp only [buildGo]
        rw [if_neg ht, if_neg hover]
        simp only [lensSum]
        omega

/-- Length of a `"\n".join`: the part lengths plus one separator between
consecutive parts. -/
theorem joinNL_length (parts : List Str) (h : parts ≠ []) :
    (joinNL parts).length + 1 = lensSum parts + parts.length := by
  induction parts with
  | nil => exact absurd rfl h
  | cons p ps ih =>
    cases ps with
    | nil => simp [joinNL, lensSum]
    | cons q qs =>
      have hrec := ih (by simp)
      simp only [joinNL, lensSum, List.length_append, List.length_cons] at hrec ⊢
      omega

/-- A `"\n".join` of parts that all end in the paragraph separator itself
ends in the paragraph separator. -/
theorem joinNL_ends_nn (base : List Str) (h : base ≠ []) :
    ∃ q, joinNL (base.map (fun t => t ++ ['\n', '\n'])) = q ++ ['\n', '\n'] := by
  induction base with
  | nil => exact absurd rfl h
  | cons t ts ih =>
    cases ts with
    | nil => exact ⟨t, by simp [joinNL]⟩
    | cons t2 ts2 =>
      obtain ⟨q, hq⟩ := ih (by simp)
      refine ⟨(t ++ ['\n', '\n']) ++ '\n' :: q, ?_⟩
      simp only [List.map_cons, joinNL] at hq ⊢
      rw [hq]
      simp

/-- `dropWhile` never lengthens a list. -/
theorem lensDropWhile_le (p : Char → Bool) (l : Str) :
    (l.dropWhile p).length ≤ l.length := by
  induction l with
  | nil => simp
  | cons c cs ih =>
    by_cases hc : p c = true
    · simp only [List.dropWhile, hc]
      exact Nat.le_succ_of_le ih
    · simp [List.dropWhile, hc]

/-- Dropping leading whitespace from a string ending in `"\n\n"` yields
either nothing or a no-longer string still ending in `"\n\n"`. -/
theorem dropWhile_append_nn (q : Str) :
    (q ++ ['\n', '\n']).dropWhile isSpaceChar = [] ∨
    ∃ r : Str, (q ++ ['\n', '\n']).dropWhile isSpaceChar = r ++ ['\n', '\n'] ∧
      r.length ≤ q.length := by
  induction q with
  | nil => left; decide
  | cons c q ih =>
    by_cases hc : isSpaceChar c = true
    · rcases ih with h | ⟨r, hr, hle⟩
      · left; simpa [List.dropWhile, hc] using h
      · right
        exact ⟨r, by simpa [List.dropWhile, hc] using hr, by simpa using Nat.le_succ_of_le hle⟩
    · right
      refine ⟨c :: q, ?_, le_rfl⟩
      simp [List.dropWhile, hc]

/-- Stripping the trailing whitespace of a string ending in `"\n\n"` removes
at least that separator. -/
theorem rev_dropWhile_nn (r : Str) :
    (((r ++ ['\n', '\n']).reverse.dropWhile isSpaceChar).reverse).length ≤ r.length := by
  have h1 : (r ++ ['\n', '\n']).reverse = '\n' :: '\n' :: r.reverse := by
    simp
  rw [h1]
  have h2 : ('\n' :: '\n' :: r.reverse).dropWhile isSpaceChar =
      r.reverse.dropWhile isSpaceChar := by
    simp [List.dropWhile, isSpaceChar]
  rw [h2]
  calc (r.reverse.dropWhile isSpaceChar).reverse.length
      = (r.reverse.dropWhile isSpaceChar).length := by simp
    _ ≤ r.reverse.length := lensDropWhile_le _ _
    _ = r.length := by simp

/-- `strip` of a string ending in `"\n\n"` is at least two characters
shorter. -/
theorem pyStrip_append_nn_length (q : Str) :
    (pyStrip (q ++ ['\n', '\n'])).length ≤ q.length := by
  unfold pyStrip
  rcases dropWhile_append_nn q with h | ⟨r, hr, hle⟩
  · rw [h]; simp
  · rw [hr]; exact le_trans (rev_dropWhile_nn r) hle

/-- C2 (corrected): the context assembler walks hits in rank order, skips
empty-text hits, includes each kept hit's text wholesale (never partially),
stops at the first hit whose `text + "\n\n"` would push the running total
past `max_chars`, and returns sources in 1:1 correspondence and order with
the concatenated segments.  Its own accounting stays within `max_chars`,
but the final `"\n".join` inserts one extra newline between segments, so
the correct context bound is `len(context) + 3 ≤ max_chars + len(sources)`
when any hit is included (the claimed `len(context) ≤ max_chars` fails, see
`build_context_budget_counterexample`). -/
theorem build_context_from_hits_spec (hits : List Hit) (max_chars : ℕ) :
    (build_context_from_hits hits max_chars).2 =
      (includedHits max_chars 0 hits).map (fun h => mkRAGSource h.1 h.2) ∧
    (build_context_from_hits hits max_chars).1 =
      pyStrip (joinNL ((includedHits max_chars 0 hits).map
        (fun h => h.2.text.getD [] ++ ['\n', '\n']))) ∧
    (∀ h ∈ includedHits max_chars 0 hits, h.2.text.getD [] ≠ []) ∧
    lensSum ((includedHits max_chars 0 hits).map
        (fun h => h.2.text.getD [] ++ ['\n', '\n'])) ≤ max_chars ∧
    ((build_context_from_hits hits max_chars).2 = [] →
      (build_context_from_hits hits max_chars).1 = []) ∧
    ((build_context_from_hits hits max_chars).2 ≠ [] →
      (build_context_from_hits hits max_chars).1.length + 3 ≤
        max_chars + (build_context_from_hits hits max_chars).2.length) := by
  have hb := buildGo_eq_includedHits max_chars hits 0
  have hctx : build_context_from_hits hits max_chars =
      (pyStrip (joinNL ((includedHits max_chars 0 hits).map
        (fun h => h.2.text.getD [] ++ ['\n', '\n']))),
       (includedHits max_chars 0 hits).map (fun h => mkRAGSource h.1 h.2)) := by
    unfold build_context_from_hits
    rw [hb]
  have hsum : lensSum ((includedHits max_chars 0 hits).map
      (fun h => h.2.text.getD [] ++ ['\n', '\n'])) ≤ max_chars := by
    have := buildGo_budget max_chars hits 0 (Nat.zero_le _)
    rw [hb] at this
    simpa using this
  refine ⟨by rw [hctx], by rw [hctx], includedHits_text_ne _ _ _, hsum, ?_, ?_⟩
  · intro hs
    rw [hctx] at hs ⊢
    simp only at hs ⊢
    have hnil : includedHits max_chars 0 hits = [] := List.map_eq_nil_iff.mp hs
    rw [hnil]
    simp [joinNL, pyStrip]
  · intro hs
    rw [hctx] at hs ⊢
    simp only at hs ⊢
    have hne : includedHits max_chars 0 hits ≠ [] := by
      intro hc; rw [hc] at hs; simp at hs
    set inc := includedHits max_chars 0 hits with hinc
    clear_value inc
    have hparts : inc.map (fun h => h.2.text.getD [] ++ ['\n', '\n']) =
        (inc.map (fun h => h.2.text.getD [])).map (fun t => t ++ ['\n', '\n']) := by
      rw [List.map_map]
      rfl
    obtain ⟨q, hq⟩ := joinNL_ends_nn (inc.map (fun h => h.2.text.getD []))
      (by simpa using hne)
    rw [hparts, hq]
    have hstrip := pyStrip_append_nn_length q
    have hjl := joinNL_length ((inc.map (fun h => h.2.text.getD [])).map
      (fun t => t ++ ['\n', '\n'])) (by simpa using hne)
    rw [hq] at hjl
    have hsum2 := hsum
    rw [hparts] at hsum2
    have hql : (q ++ ['\n', '\n']).length = q.length + 2 := by simp
    have hplen : ((inc.map (fun h => h.2.text.getD [])).map
        (fun t => t ++ ['\n', '\n'])).length = inc.length := by simp
    have hslen : (inc.map (fun h => mkRAGSource h.1 h.2)).length = inc.length := by simp
    rw [hql, hplen] at hjl
    rw [hslen]
    calc (pyStrip (q ++ ['\n', '\n'])).length + 3
        ≤ q.length + 3 := Nat.add_le_add_right hstrip 3
      _ = lensSum (List.map (fun t => t ++ ['\n', '\n'])
            (List.map (fun h => h.2.text.getD []) inc)) + inc.length := hjl
      _ ≤ max_chars + inc.length := Nat.add_le_add_right hsum2 inc.length

/-- C2 counterexample: four one-character texts under `max_chars = 12` — the
loop admits all four, and the joined, stripped context has 13 > 12
characters, refuting `len(contextText) ≤ maxChars`. -/
theorem build_context_budget_counterexample :
    (build_context_from_hits budgetHits 12).1.length = 13 ∧
    ¬((build_context_from_hits budgetHits 12).1.length ≤ 12) := by
  decide

/-- Witness for `build_context_from_hits_spec` at the concrete input showing
the corrected bound `13 + 3 ≤ 12 + 4` is tight there. -/
theorem build_context_from_hits_spec_witness :
    (build_context_from_hits budgetHits 12).2 =
      (includedHits 12 0 budgetHits).map (fun h => mkRAGSource h.1 h.2) ∧
    (build_context_from_hits budgetHits 12).1 =
      pyStrip (joinNL ((includedHits 12 0 budgetHits).map
        (fun h => h.2.text.getD [] ++ ['\n', '\n']))) ∧
    (∀ h ∈ includedHits 12 0 budgetHits, h.2.text.getD [] ≠ []) ∧
    lensSum ((includedHits 12 0 budgetHits).map
        (fun h => h.2.text.getD [] ++ ['\n', '\n'])) ≤ 12 ∧
    ((build_context_from_hits budgetHits 12).2 = [] →
      (build_context_from_hits budgetHits 12).1 = []) ∧
    ((build_context_from_hits budgetHits 12).2 ≠ [] →
      (build_context_from_hits budgetHits 12).1.length + 3 ≤
        12 + (build_context_from_hits budgetHits 12).2.length) :=
  build_context_from_hits_spec budgetHits 12

/-! ## Claims C10, C7, C3: the orchestrator -/

/-- A hit list whose payload texts are all empty or missing assembles to an
empty context and an empty source list. -/
theorem buildGo_all_empty (max_chars : ℕ) (hits : List Hit) (used : ℕ)
    (h : ∀ x ∈ hits, x.2.text.getD [] = []) :
    buildGo max_chars hits used = ([], []) := by
  induction hits generalizing used with
  | nil => simp [buildGo]
  | cons hd rest ih =>
    obtain ⟨s, p⟩ := hd
    have hp : p.text.getD [] = [] := h (s, p) (by simp)
    simp only [buildGo, hp, if_pos]
    exact ih used (fun x hx => h x (List.mem_cons_of_mem _ hx))

/-- `build_context_from_hits` on all-empty texts. -/
theorem build_context_all_empty (hits : List Hit) (max_chars : ℕ)
    (h : ∀ x ∈ hits, x.2.text.getD [] = []) :
    build_context_from_hits hits max_chars = ([], []) := by
  unfold build_context_from_hits
  rw [buildGo_all_empty max_chars hits 0 h]
  simp [joinNL, pyStrip]

/-- C10 (confirmed): `answer_with_rag` reports `used_rag = true` exactly
when the fused candidate list is non-empty, and when the fused list is
non-empty but every re-ranked survivor has an empty or missing payload text,
the response still has `used_rag = true` with an empty source list and an
empty assembled context (the generator is called with the context part of
the user prompt empty). -/
theorem answer_with_rag_used_rag_iff (question : Str) (llmChat : List Msg → Str)
    (dense sparse : List Hit) (rerankFn : Str → List Hit → ℕ → List Hit)
    (top_k : ℕ) :
    ((answer_with_rag question llmChat dense sparse rerankFn top_k).used_rag = true ↔
      reciprocal_rank_fusion [dense, sparse] RRF_K ≠ []) ∧
    (reciprocal_rank_fusion [dense, sparse] RRF_K ≠ [] →
      (∀ x ∈ rerankFn question (reciprocal_rank_fusion [dense, sparse] RRF_K) top_k,
        x.2.text.getD [] = []) →
      answer_with_rag question llmChat dense sparse rerankFn top_k =
        ⟨llmChat (ragMessages question []), [], true⟩) := by
  constructor
  · by_cases hfused : reciprocal_rank_fusion [dense, sparse] RRF_K = []
    · simp [answer_with_rag, hfused]
    · simp [answer_with_rag, hfused]
  · intro hfused hempty
    have hc := build_context_all_empty
      (rerankFn question (reciprocal_rank_fusion [dense, sparse] RRF_K) top_k)
      2000 hempty
    simp only [answer_with_rag, if_neg hfused]
    rw [hc]

/-- Witness for `answer_with_rag_used_rag_iff` at a concrete input whose
fused list is non-empty while the single surviving payload has an empty
text. -/
theorem answer_with_rag_used_rag_iff_witness :
    ((answer_with_rag ['q'] (fun _ => ['a']) [emptyTextHit] [] (fun _ h _ => h)
        RERANK_N).used_rag = true ↔
      reciprocal_rank_fusion [[emptyTextHit], []] RRF_K ≠ []) ∧
    (reciprocal_rank_fusion [[emptyTextHit], []] RRF_K ≠ [] →
      (∀ x ∈ (fun (_ : Str) (h : List Hit) (_ : ℕ) => h) ['q']
          (reciprocal_rank_fusion [[emptyTextHit], []] RRF_K) RERANK_N,
        x.2.text.getD [] = []) →
      answer_with_rag ['q'] (fun _ => ['a']) [emptyTextHit] [] (fun _ h _ => h)
          RERANK_N =
        ⟨(fun _ => ['a']) (ragMessages ['q'] []), [], true⟩) :=
  answer_with_rag_used_rag_iff ['q'] (fun _ => ['a']) [emptyTextHit] []
    (fun _ h _ => h) RERANK_N

/-- C7 (code_bug): at the failing input — both retrieval modes empty — the
fused list is empty and `answer_with_rag` does return `used_rag = false`
with no sources, ignoring the re-ranker, and its fallback system message is
`"You are a helpful assistant. No documents found."`; that message does
*not* contain the phrase `"No documents were found"` (in any case) that the
claim — and the repository's own test `test_rag_pipeline_no_hits_fallback`
— require, only the shorter `"No documents found"`. -/
theorem answer_no_hits_fallback_evidence :
    reciprocal_rank_fusion [[], []] RRF_K = [] ∧
    answer_with_rag ['Q'] (fun _ => ['a']) [] [] (fun _ h _ => h) RERANK_N =
      ⟨['a'], [], false⟩ ∧
    answer_with_rag ['Q'] (fun _ => ['a']) [] [] (fun _ _ _ => []) RERANK_N =
      ⟨['a'], [], false⟩ ∧
    (noHitsMessages ['Q']).head? =
      some ⟨"system".toList,
        "You are a helpful assistant. No documents found.".toList⟩ ∧
    containsSub "No documents found".toList
      "You are a helpful assistant. No documents found.".toList = true ∧
    containsSub "No documents were found".toList
      "You are a helpful assistant. No documents found.".toList = false ∧
    containsSub "no documents were found".toList
      "You are a helpful assistant. No documents found.".toList = false := by
  decide

/-- C3 (code_bug): at the failing input — a non-empty fused list whose only
surviving payload has an empty text — the streaming pipeline emits *no*
`Sources` event at all (the `if sources:` guard skips it) and streams the
content tokens anyway, so the stream does not begin with a `Sources` event;
this contradicts the function's own docstring ("Line 1: Sources"). -/
theorem stream_missing_sources_evidence :
    reciprocal_rank_fusion [[emptyTextHit], []] RRF_K ≠ [] ∧
    stream_answer_with_rag ['q'] (fun _ => [['H', 'i']]) [emptyTextHit] []
      (fun _ h _ => h) RERANK_N = [StreamEvent.content ['H', 'i']] ∧
    (stream_answer_with_rag ['q'] (fun _ => [['H', 'i']]) [emptyTextHit] []
      (fun _ h _ => h) RERANK_N).filter isSourcesEvent = [] := by
  decide

/-! ## Claim C1: fusion refines its specification -/

/-- `totalScore` distributes over concatenation of occurrence lists. -/
theorem totalScore_append (key : Str) (xs ys : List Occ) :
    totalScore key (xs ++ ys) = totalScore key xs + totalScore key ys := by
  induction xs with
  | nil => simp [totalScore]
  | cons o os ih => simp [totalScore, ih, add_assoc]

/-- `lastPayloadD` over a concatenation threads the default through. -/
theorem lastPayloadD_append (d : Payload) (key : Str) (xs ys : List Occ) :
    lastPayloadD d key (xs ++ ys) = lastPayloadD (lastPayloadD d key xs) key ys := by
  induction xs generalizing d with
  | nil => simp [lastPayloadD]
  | cons o os ih => simp [lastPayloadD, ih]

/-- When `key` occurs, `lastPayloadD` ignores its default. -/
theorem lastPayloadD_irrel (key : Str) (xs : List Occ)
    (h : ∃ o ∈ xs, o.key = key) (d1 d2 : Payload) :
    lastPayloadD d1 key xs = lastPayloadD d2 key xs := by
  induction xs generalizing d1 d2 with
  | nil => simp at h
  | cons o os ih =>
    by_cases ho : o.key = key
    · simp [lastPayloadD, ho]
    · obtain ⟨o2, ho2, hk2⟩ := h
      rcases List.mem_cons.mp ho2 with he | he
      · exact absurd (he ▸ hk2) ho
      · simp only [lastPayloadD, if_neg ho]
        exact ih ⟨o2, he, hk2⟩ d1 d2

/-- Updating an absent key appends a fresh entry at the end. -/
theorem upsert_not_mem (key : Str) (c : ℚ) (pl : Payload) (es : List Entry)
    (h : key ∉ es.map Entry.key) :
    upsert key c pl es = es ++ [⟨key, c, pl⟩] := by
  induction es with
  | nil => simp [upsert]
  | cons e es ih =>
    have hne : ¬(e.key = key) := by
      intro hc; exact h (by simp [hc])
    simp only [upsert, if_neg hne, List.cons_append, List.cons.injEq, true_and]
    exact ih (fun hc => h (List.mem_cons_of_mem _ hc))

/-- Updating a present key (keys distinct) rewrites exactly that entry in
place. -/
theorem upsert_mem (key : Str) (c : ℚ) (pl : Payload) (es : List Entry)
    (h : key ∈ es.map Entry.key) (hnd : (es.map Entry.key).Nodup) :
    upsert key c pl es =
      es.map (fun e => if e.key = key then ⟨key, e.score + c, pl⟩ else e) := by
  induction es with
  | nil => simp at h
  | cons e es ih =>
    rw [List.map_cons] at h hnd
    by_cases he : e.key = key
    · have hout : key ∉ es.map Entry.key := he ▸ (List.nodup_cons.mp hnd).1
      have hmap : es.map (fun e => if e.key = key then (⟨key, e.score + c, pl⟩ : Entry) else e) =
          es.map id := by
        refine List.map_congr_left (fun a ha => ?_)
        have hak : a.key ≠ key := fun hc =>
          hout (by simpa [hc] using List.mem_map_of_mem Entry.key ha)
        simp [hak]
      simp only [upsert, if_pos he, List.map_cons, if_pos he, hmap, List.map_id]
    · have hmem : key ∈ es.map Entry.key := by
        rcases List.mem_cons.mp h with hc | hc
        · exact absurd hc.symm he
        · exact hc
      have hnd2 : (es.map Entry.key).Nodup := (List.nodup_cons.mp hnd).2
      simp only [upsert, if_neg he, List.map_cons, if_neg he, List.cons.injEq, true_and]
      exact ih hmem hnd2

/-- `applyOcc` of no occurrences changes nothing. -/
theorem applyOcc_nil (e : Entry) : applyOcc [] e = e := by
  simp [applyOcc, totalScore, lastPayloadD]

/-- Unfolding one occurrence of `applyOcc`. -/
theorem applyOcc_cons (o : Occ) (os : List Occ) (e : Entry) :
    applyOcc (o :: os) e =
      if e.key = o.key then applyOcc os ⟨e.key, e.score + o.contrib, o.payload⟩
      else applyOcc os e := by
  obtain ⟨ok, oc, op⟩ := o
  obtain ⟨ek, esc, ep⟩ := e
  by_cases h : ek = ok
  · subst h
    simp [applyOcc, totalScore, lastPayloadD, add_assoc]
  · have h2 : ¬ ok = ek := fun hc => h hc.symm
    simp [applyOcc, totalScore, lastPayloadD, h, h2]

/-- `buildNew` only inspects membership in `seen`. -/
theorem buildNew_congr (occs : List Occ) (s1 s2 : List Str)
    (h : ∀ key, key ∈ s1 ↔ key ∈ s2) : buildNew s1 occs = buildNew s2 occs := by
  induction occs generalizing s1 s2 with
  | nil => rfl
  | cons o os ih =>
    by_cases hm : o.key ∈ s1
    · simp only [buildNew, if_pos hm, if_pos ((h o.key).mp hm)]
      exact ih s1 s2 h
    · have hm2 : o.key ∉ s2 := fun hc => hm ((h o.key).mpr hc)
      simp only [buildNew, if_neg hm, if_neg hm2, List.cons.injEq, true_and]
      refine ih _ _ (fun key => ?_)
      simp only [List.mem_cons]
      exact or_congr Iff.rfl (h key)

/-- Updating keeps the key set; a fresh key is appended. -/
theorem upsert_keys_mem (key : Str) (c : ℚ) (pl : Payload) (es : List Entry)
    (h : key ∈ es.map Entry.key) (hnd : (es.map Entry.key).Nodup) :
    (upsert key c pl es).map Entry.key = es.map Entry.key := by
  rw [upsert_mem key c pl es h hnd, List.map_map]
  refine List.map_congr_left (fun e _ => ?_)
  by_cases he : e.key = key
  · simp [he]
  · simp [he]

/-- The central characterisation of the fusion fold: starting from entries
with distinct keys, folding a batch of occurrences updates every existing
entry by `applyOcc` and appends the entries of the new keys. -/
theorem foldl_upsert_eq (occs : List Occ) (es : List Entry)
    (hnd : (es.map Entry.key).Nodup) :
    occs.foldl upsertOcc es =
      es.map (applyOcc occs) ++ buildNew (es.map Entry.key) occs := by
  induction occs generalizing es with
  | nil =>
    have h1 : es.map (applyOcc []) = es.map id :=
      List.map_congr_left (fun a _ => applyOcc_nil a)
    simp [buildNew, h1]
  | cons o os ih =>
    rw [List.foldl_cons]
    by_cases hmem : o.key ∈ es.map Entry.key
    · have hup : upsertOcc es o =
          es.map (fun e => if e.key = o.key then ⟨o.key, e.score + o.contrib, o.payload⟩ else e) := by
        unfold upsertOcc
        exact upsert_mem _ _ _ _ hmem hnd
      have hkeys : (upsertOcc es o).map Entry.key = es.map Entry.key := by
        unfold upsertOcc
        exact upsert_keys_mem _ _ _ _ hmem hnd
      rw [ih (upsertOcc es o) (by rw [hkeys]; exact hnd), hkeys]
      have hmap : (upsertOcc es o).map (applyOcc os) = es.map (applyOcc (o :: os)) := by
        rw [hup, List.map_map]
        refine List.map_congr_left (fun e _ => ?_)
        rw [applyOcc_cons]
        by_cases he : e.key = o.key
        · simp only [Function.comp_apply, if_pos he]
          rw [he]
        · simp only [Function.comp_apply, if_neg he]
      rw [hmap]
      have hbn : buildNew (es.map Entry.key) (o :: os) = buildNew (es.map Entry.key) os := by
        simp [buildNew, hmem]
      rw [hbn]
    · have hup : upsertOcc es o = es ++ [⟨o.key, o.contrib, o.payload⟩] := by
        unfold upsertOcc
        exact upsert_not_mem _ _ _ _ hmem
      have hkeys2 : (upsertOcc es o).map Entry.key = es.map Entry.key ++ [o.key] := by
        rw [hup]; simp
      have hnd2 : ((upsertOcc es o).map Entry.key).Nodup := by
        rw [hkeys2]
        simp [List.nodup_append, hnd, hmem]
      rw [ih (upsertOcc es o) hnd2, hkeys2, hup]
      rw [List.map_append]
      have hhead : ([(⟨o.key, o.contrib, o.payload⟩ : Entry)]).map (applyOcc os) =
          [⟨o.key, o.contrib + totalScore o.key os, lastPayloadD o.payload o.key os⟩] := by
        simp [applyOcc]
      rw [hhead]
      have hbn2 : buildNew (es.map Entry.key ++ [o.key]) os =
          buildNew (o.key :: es.map Entry.key) os := by
        refine buildNew_congr os _ _ (fun key => ?_)
        simp [List.mem_append, List.mem_cons, or_comm]
      rw [hbn2]
      have hmap2 : es.map (applyOcc os) = es.map (applyOcc (o :: os)) := by
        refine List.map_congr_left (fun e he => ?_)
        rw [applyOcc_cons]
        have hek : ¬ e.key = o.key := fun hc =>
          hmem (by simpa [hc] using List.mem_map_of_mem Entry.key he)
        rw [if_neg hek]
      rw [hmap2]
      have hbnc : buildNew (es.map Entry.key) (o :: os) =
          (⟨o.key, o.contrib + totalScore o.key os, lastPayloadD o.payload o.key os⟩ : Entry) ::
            buildNew (o.key :: es.map Entry.key) os := by
        simp [buildNew, hmem]
      rw [hbnc]
      simp

/-- Keys emitted by `dedupKeys` are not in `seen`. -/
theorem dedupKeys_not_seen (occs : List Occ) (seen : List Str) (key : Str)
    (h : key ∈ dedupKeys seen occs) : key ∉ seen := by
  induction occs generalizing seen with
  | nil => simp [dedupKeys] at h
  | cons o os ih =>
    by_cases hm : o.key ∈ seen
    · exact ih seen (by simpa [dedupKeys, hm] using h)
    · rw [dedupKeys, if_neg hm] at h
      rcases List.mem_cons.mp h with he | he
      · exact he ▸ hm
      · intro hc
        exact ih (o.key :: seen) he (List.mem_cons_of_mem _ hc)

/-- Keys emitted by `dedupKeys` occur in the occurrence list. -/
theorem dedupKeys_occurs (occs : List Occ) (seen : List Str) (key : Str)
    (h : key ∈ dedupKeys seen occs) : ∃ o ∈ occs, o.key = key := by
  induction occs generalizing seen with
  | nil => simp [dedupKeys] at h
  | cons o os ih =>
    by_cases hm : o.key ∈ seen
    · obtain ⟨o2, ho2, hk⟩ := ih seen (by simpa [dedupKeys, hm] using h)
      exact ⟨o2, List.mem_cons_of_mem _ ho2, hk⟩
    · rw [dedupKeys, if_neg hm] at h
      rcases List.mem_cons.mp h with he | he
      · exact ⟨o, List.mem_cons_self _ _, he.symm⟩
      · obtain ⟨o2, ho2, hk⟩ := ih (o.key :: seen) he
        exact ⟨o2, List.mem_cons_of_mem _ ho2, hk⟩

/-- `buildNew` is exactly the spec aggregation: one entry per first-seen
key, carrying the key's total score and last payload over the whole batch. -/
theorem buildNew_eq_dedup (occs : List Occ) (seen : List Str) :
    buildNew seen occs = (dedupKeys seen occs).map
      (fun key => ⟨key, totalScore key occs, lastPayloadD emptyPayload key occs⟩) := by
  induction occs generalizing seen with
  | nil => simp [buildNew, dedupKeys]
  | cons o os ih =>
    by_cases hm : o.key ∈ seen
    · rw [buildNew, if_pos hm, dedupKeys, if_pos hm, ih seen]
      refine List.map_congr_left (fun key hkey => ?_)
      have hne : ¬ o.key = key := fun hc =>
        dedupKeys_not_seen os seen key hkey (hc ▸ hm)
      simp [totalScore, lastPayloadD, hne]
    · rw [buildNew, if_neg hm, dedupKeys, if_neg hm, List.map_cons, ih (o.key :: seen)]
      have hhead : (⟨o.key, o.contrib + totalScore o.key os,
          lastPayloadD o.payload o.key os⟩ : Entry) =
          ⟨o.key, totalScore o.key (o :: os), lastPayloadD emptyPayload o.key (o :: os)⟩ := by
        simp [totalScore, lastPayloadD]
      rw [hhead]
      refine congrArg _ (List.map_congr_left (fun key hkey => ?_))
      have hns := dedupKeys_not_seen os (o.key :: seen) key hkey
      have hne : ¬ o.key = key := fun hc => hns (hc ▸ List.mem_cons_self _ _)
      simp [totalScore, lastPayloadD, hne]

/-- The fusion inner loop is the occurrence fold. -/
theorem procList_eq_foldl (k : ℕ) (l : List Hit) (r : ℕ) (es : List Entry) :
    procList k r l es =
      ((rankFrom r l).map
        (fun rh => (⟨docKey rh.2.2, rrfContrib k rh.1, rh.2.2⟩ : Occ))).foldl upsertOcc es := by
  induction l generalizing r es with
  | nil => simp [procList, rankFrom]
  | cons h hs ih =>
    obtain ⟨s, p⟩ := h
    simp only [procList, rankFrom, List.map_cons, List.foldl_cons]
    exact ih (r + 1) _

/-- The fusion double loop is the fold over all spec occurrences. -/
theorem rrfEntries_eq_foldl (k : ℕ) (ranked_lists : List (List Hit)) :
    rrfEntries k ranked_lists = (specOccs k ranked_lists).foldl upsertOcc [] := by
  suffices h : ∀ es, ranked_lists.foldl (fun es l => procList k 1 l es) es =
      (specOccs k ranked_lists).foldl upsertOcc es by
    exact h []
  unfold specOccs
  induction ranked_lists with
  | nil => intro es; simp [cat]
  | cons l ls ih =>
    intro es
    simp only [List.foldl_cons, List.map_cons]
    have hcat : cat ((rankFrom 1 l).map
        (fun rh => (⟨docKey rh.2.2, rrfContrib k rh.1, rh.2.2⟩ : Occ)) ::
          ls.map (fun l => (rankFrom 1 l).map
            (fun rh => (⟨docKey rh.2.2, rrfContrib k rh.1, rh.2.2⟩ : Occ)))) =
        (rankFrom 1 l).map
          (fun rh => (⟨docKey rh.2.2, rrfContrib k rh.1, rh.2.2⟩ : Occ)) ++
        cat (ls.map (fun l => (rankFrom 1 l).map
          (fun rh => (⟨docKey rh.2.2, rrfContrib k rh.1, rh.2.2⟩ : Occ)))) := rfl
    rw [hcat, List.foldl_append, ← procList_eq_foldl]
    exact ih _

/-- The pre-sort entry list of the code equals the spec aggregation. -/
theorem rrf_presort_eq (k : ℕ) (ranked_lists : List (List Hit)) :
    (rrfEntries k ranked_lists).map (fun e => (e.score, e.payload)) =
      (dedupKeys [] (specOccs k ranked_lists)).map
        (fun key => (totalScore key (specOccs k ranked_lists),
          lastPayloadD emptyPayload key (specOccs k ranked_lists))) := by
  rw [rrfEntries_eq_foldl, foldl_upsert_eq (specOccs k ranked_lists) [] (by simp)]
  simp only [List.map_nil, List.nil_append]
  rw [buildNew_eq_dedup, List.map_map]
  rfl

/-- C1 (confirmed): for every family of ranked lists and positive damping
constant, `reciprocal_rank_fusion` returns exactly the spec-described list:
one deduplicated hit per FusionKey in first-seen insertion order, scored by
the sum over every list of `1/(k + rank)` with `rank` the 1-based position,
stably sorted by total score descending (so ties keep first-seen order, and
the output is deterministic in the input order); the output is sorted by
score descending. -/
theorem reciprocal_rank_fusion_eq_spec (ranked_lists : List (List Hit)) (k : ℕ)
    (hk : 0 < k) :
    reciprocal_rank_fusion ranked_lists k = rrf_spec ranked_lists k ∧
    List.Sorted (fun a b : Hit => b.1 ≤ a.1) (reciprocal_rank_fusion ranked_lists k) := by
  constructor
  · unfold reciprocal_rank_fusion rrf_spec
    rw [rrf_presort_eq]
  · unfold reciprocal_rank_fusion sortByScoreDesc
    exact List.sorted_insertionSort _ _

/-- Witness for `reciprocal_rank_fusion_eq_spec` at the default `k = 60`
and two concrete lists sharing a payload. -/
theorem reciprocal_rank_fusion_eq_spec_witness :
    reciprocal_rank_fusion [budgetHits, [emptyTextHit, (1, textPayload ['b'])]] 60 =
      rrf_spec [budgetHits, [emptyTextHit, (1, textPayload ['b'])]] 60 ∧
    List.Sorted (fun a b : Hit => b.1 ≤ a.1)
      (reciprocal_rank_fusion [budgetHits, [emptyTextHit, (1, textPayload ['b'])]] 60) :=
  reciprocal_rank_fusion_eq_spec [budgetHits, [emptyTextHit, (1, textPayload ['b'])]] 60
    (by decide)

/-! ## Claim C9: fusing a list with itself -/

/-- When every key of `ys` is already in `seen`, `dedupKeys` drops `ys`. -/
theorem dedupKeys_all_seen (ys : List Occ) (seen : List Str)
    (h : ∀ o ∈ ys, o.key ∈ seen) : dedupKeys seen ys = [] := by
  induction ys with
  | nil => rfl
  | cons o os ih =>
    rw [dedupKeys, if_pos (h o (List.mem_cons_self _ _))]
    exact ih (fun o2 ho2 => h o2 (List.mem_cons_of_mem _ ho2))

/-- A second batch whose keys all appear in the first batch (or in `seen`)
adds no new deduplicated key. -/
theorem dedupKeys_append_absorb (xs ys : List Occ) (seen : List Str)
    (h : ∀ o ∈ ys, o.key ∈ seen ∨ ∃ o2 ∈ xs, o2.key = o.key) :
    dedupKeys seen (xs ++ ys) = dedupKeys seen xs := by
  induction xs generalizing seen with
  | nil =>
    simp only [List.nil_append, dedupKeys]
    refine dedupKeys_all_seen ys seen (fun o ho => ?_)
    rcases h o ho with hs | ⟨o2, ho2, _⟩
    · exact hs
    · simp at ho2
  | cons x xs ih =>
    by_cases hm : x.key ∈ seen
    · rw [List.cons_append, dedupKeys, if_pos hm, dedupKeys, if_pos hm]
      refine ih seen (fun o ho => ?_)
      rcases h o ho with hs | ⟨o2, ho2, hk⟩
      · exact Or.inl hs
      · rcases List.mem_cons.mp ho2 with he | he
        · exact Or.inl (by rw [← hk, he]; exact hm)
        · exact Or.inr ⟨o2, he, hk⟩
    · rw [List.cons_append, dedupKeys, if_neg hm, dedupKeys, if_neg hm]
      refine congrArg _ (ih (x.key :: seen) (fun o ho => ?_))
      rcases h o ho with hs | ⟨o2, ho2, hk⟩
      · exact Or.inl (List.mem_cons_of_mem _ hs)
      · rcases List.mem_cons.mp ho2 with he | he
        · exact Or.inl (by rw [← hk, he]; exact List.mem_cons_self _ _)
        · exact Or.inr ⟨o2, he, hk⟩

/-- Doubling all scores commutes with the stable descending insertion. -/
theorem orderedInsert_map_double (x : Hit) (m : List Hit) :
    List.orderedInsert (fun a b : Hit => b.1 ≤ a.1) (2 * x.1, x.2)
        (m.map (fun y => (2 * y.1, y.2))) =
      (List.orderedInsert (fun a b : Hit => b.1 ≤ a.1) x m).map
        (fun y => (2 * y.1, y.2)) := by
  induction m with
  | nil => simp [List.orderedInsert]
  | cons y m ih =>
    have hiff : ((2 * y.1 : ℚ) ≤ 2 * x.1) ↔ (y.1 ≤ x.1) :=
      mul_le_mul_left (by norm_num : (0 : ℚ) < 2)
    by_cases hc : y.1 ≤ x.1
    · simp [List.orderedInsert, if_pos hc, if_pos (hiff.mpr hc)]
    · simp only [List.map_cons, List.orderedInsert, if_neg hc,
        if_neg (fun h => hc (hiff.mp h))]
      rw [ih]

/-- Doubling all scores commutes with the stable descending sort. -/
theorem sortByScoreDesc_map_double (l : List Hit) :
    sortByScoreDesc (l.map (fun y => (2 * y.1, y.2))) =
      (sortByScoreDesc l).map (fun y => (2 * y.1, y.2)) := by
  induction l with
  | nil => rfl
  | cons x l ih =>
    unfold sortByScoreDesc at *
    simp only [List.map_cons, List.insertionSort, ih]
    exact orderedInsert_map_double x _

/-- Total scores are non-negative when every contribution is. -/
theorem totalScore_nonneg (key : Str) (occs : List Occ)
    (h : ∀ o ∈ occs, 0 ≤ o.contrib) : 0 ≤ totalScore key occs := by
  induction occs with
  | nil => simp [totalScore]
  | cons o os ih =>
    have h1 : 0 ≤ o.contrib := h o (List.mem_cons_self _ _)
    have h2 := ih (fun o2 ho2 => h o2 (List.mem_cons_of_mem _ ho2))
    by_cases hc : o.key = key
    · simp only [totalScore, if_pos hc]
      positivity
    · simp only [totalScore, if_neg hc, zero_add]
      exact h2

/-- Total scores are positive when the key occurs and every contribution is
positive. -/
theorem totalScore_pos (key : Str) (occs : List Occ)
    (hpos : ∀ o ∈ occs, 0 < o.contrib) (hocc : ∃ o ∈ occs, o.key = key) :
    0 < totalScore key occs := by
  induction occs with
  | nil => simp at hocc
  | cons o os ih =>
    have hnn : 0 ≤ totalScore key os :=
      totalScore_nonneg key os (fun o2 ho2 => le_of_lt (hpos o2 (List.mem_cons_of_mem _ ho2)))
    by_cases hc : o.key = key
    · have h1 : 0 < o.contrib := hpos o (List.mem_cons_self _ _)
      simp only [totalScore, if_pos hc]
      positivity
    · obtain ⟨o2, ho2, hk2⟩ := hocc
      rcases List.mem_cons.mp ho2 with he | he
      · exact absurd (he ▸ hk2) hc
      · simp only [totalScore, if_neg hc, zero_add]
        exact ih (fun o3 ho3 => hpos o3 (List.mem_cons_of_mem _ ho3)) ⟨o2, he, hk2⟩

/-- Every rank attached by `rankFrom r` is at least `r`. -/
theorem rankFrom_fst_ge {α : Type} (r : ℕ) (l : List α) :
    ∀ x ∈ rankFrom r l, r ≤ x.1 := by
  induction l generalizing r with
  | nil => simp [rankFrom]
  | cons a l ih =>
    intro x hx
    rcases List.mem_cons.mp hx with he | he
    · rw [he]
    · exact le_trans (Nat.le_succ r) (ih (r + 1) x he)

/-- RRF contributions at rank at least 1 are positive. -/
theorem rrfContrib_pos (k r : ℕ) (hr : 1 ≤ r) : 0 < rrfContrib k r := by
  unfold rrfContrib
  refine one_div_pos.mpr ?_
  have : 1 ≤ k + r := le_trans hr (Nat.le_add_left r k)
  exact_mod_cast Nat.lt_of_lt_of_le Nat.zero_lt_one this

/-- C9 (confirmed): fusing a non-empty list with itself doubles every
deduplicated hit's fused score relative to fusing it once — so each score
strictly increases (all fused scores are positive) — and both fusions list
the same hits in the same relative order. -/
theorem rrf_self_fusion_doubles (l : List Hit) (k : ℕ) (hk : 0 < k)
    (hl : l ≠ []) :
    reciprocal_rank_fusion [l, l] k =
      (reciprocal_rank_fusion [l] k).map (fun y => (2 * y.1, y.2)) ∧
    (reciprocal_rank_fusion [l, l] k).map Prod.snd =
      (reciprocal_rank_fusion [l] k).map Prod.snd ∧
    ∀ x ∈ reciprocal_rank_fusion [l] k, 0 < x.1 ∧ x.1 < 2 * x.1 := by
  have hOO : specOccs k [l, l] = specOccs k [l] ++ specOccs k [l] := by
    simp [specOccs, cat]
  have hpos : ∀ o ∈ specOccs k [l], 0 < o.contrib := by
    intro o ho
    simp only [specOccs, cat, List.map_cons, List.map_nil, List.foldr_cons,
      List.foldr_nil, List.append_nil] at ho
    obtain ⟨rh, hrh, rfl⟩ := List.mem_map.mp ho
    exact rrfContrib_pos k rh.1 (rankFrom_fst_ge 1 l rh hrh)
  have hdk : dedupKeys [] (specOccs k [l] ++ specOccs k [l]) =
      dedupKeys [] (specOccs k [l]) := by
    refine dedupKeys_append_absorb _ _ _ (fun o ho => Or.inr ⟨o, ho, rfl⟩)
  have hpre : (rrfEntries k [l, l]).map (fun e => (e.score, e.payload)) =
      ((rrfEntries k [l]).map (fun e => (e.score, e.payload))).map
        (fun y => (2 * y.1, y.2)) := by
    rw [rrf_presort_eq, rrf_presort_eq, hOO, hdk, List.map_map]
    refine List.map_congr_left (fun key hkey => ?_)
    have hocc := dedupKeys_occurs _ _ _ hkey
    have hts : totalScore key (specOccs k [l] ++ specOccs k [l]) =
        2 * totalScore key (specOccs k [l]) := by
      rw [totalScore_append, two_mul]
    have hlp : lastPayloadD emptyPayload key (specOccs k [l] ++ specOccs k [l]) =
        lastPayloadD emptyPayload key (specOccs k [l]) := by
      rw [lastPayloadD_append]
      exact lastPayloadD_irrel key _ hocc _ _
    simp [hts, hlp]
  have hfirst : reciprocal_rank_fusion [l, l] k =
      (reciprocal_rank_fusion [l] k).map (fun y => (2 * y.1, y.2)) := by
    unfold reciprocal_rank_fusion
    rw [hpre]
    exact sortByScoreDesc_map_double _
  refine ⟨hfirst, ?_, ?_⟩
  · rw [hfirst, List.map_map]
    rfl
  · intro x hx
    have hxpre : x ∈ (rrfEntries k [l]).map (fun e => (e.score, e.payload)) := by
      have hperm := List.perm_insertionSort (fun a b : Hit => b.1 ≤ a.1)
        ((rrfEntries k [l]).map (fun e => (e.score, e.payload)))
      exact hperm.subset hx
    rw [rrf_presort_eq] at hxpre
    obtain ⟨key, hkey, rfl⟩ := List.mem_map.mp hxpre
    have hxpos : 0 < totalScore key (specOccs k [l]) :=
      totalScore_pos key _ hpos (dedupKeys_occurs _ _ _ hkey)
    constructor
    · exact hxpos
    · simpa using by linarith

/-- Witness for `rrf_self_fusion_doubles` at a one-element list and `k = 1`. -/
theorem rrf_self_fusion_doubles_witness :
    0 < 1 ∧ ([(1, textPayload ['a'])] : List Hit) ≠ [] ∧
    (reciprocal_rank_fusion [[(1, textPayload ['a'])], [(1, textPayload ['a'])]] 1 =
      (reciprocal_rank_fusion [[(1, textPayload ['a'])]] 1).map
        (fun y => (2 * y.1, y.2)) ∧
    (reciprocal_rank_fusion [[(1, textPayload ['a'])], [(1, textPayload ['a'])]] 1).map
        Prod.snd =
      (reciprocal_rank_fusion [[(1, textPayload ['a'])]] 1).map Prod.snd ∧
    ∀ x ∈ reciprocal_rank_fusion [[(1, textPayload ['a'])]] 1,
      0 < x.1 ∧ x.1 < 2 * x.1) :=
  ⟨by decide, by decide,
   rrf_self_fusion_doubles [(1, textPayload ['a'])] 1 (by decide) (by decide)⟩

/-! ## Claims C4 and C5: the chunker -/

/-- `cat` of a cons. -/
theorem cat_cons {α : Type} (x : List α) (xs : List (List α)) :
    cat (x :: xs) = x ++ cat xs := rfl

/-- `cat` of the empty list. -/
theorem cat_nil {α : Type} : cat ([] : List (List α)) = [] := rfl

/-- `cat` distributes over append. -/
theorem cat_append {α : Type} (xs ys : List (List α)) :
    cat (xs ++ ys) = cat xs ++ cat ys := by
  induction xs with
  | nil => simp [cat_nil]
  | cons x xs ih => simp [cat_cons, ih]

/-- Membership in a flattened list. -/
theorem mem_cat {α : Type} (p : α) (xs : List (List α)) :
    p ∈ cat xs ↔ ∃ x ∈ xs, p ∈ x := by
  induction xs with
  | nil => simp [cat]
  | cons x xs ih =>
    simp only [cat, List.foldr_cons, List.mem_append, List.mem_cons]
    constructor
    · rintro (h | h)
      · exact ⟨x, Or.inl rfl, h⟩
      · obtain ⟨y, hy, hp⟩ := ih.mp h
        exact ⟨y, Or.inr hy, hp⟩
    · rintro ⟨y, hy | hy, hp⟩
      · exact Or.inl (hy ▸ hp)
      · exact Or.inr (ih.mpr ⟨y, hy, hp⟩)

/-- Flattening singletons is the identity. -/
theorem cat_singletons {α : Type} (l : List α) :
    cat (l.map (fun c => [c])) = l := by
  induction l with
  | nil => rfl
  | cons c l ih => simp [cat_cons, ih]

/-- Flattening after replacing each block by blocks with the same content. -/
theorem cat_cat_map {α : Type} (xs : List (List α)) (g : List α → List (List α))
    (h : ∀ x ∈ xs, cat (g x) = x) : cat (cat (xs.map g)) = cat xs := by
  induction xs with
  | nil => rfl
  | cons x xs ih =>
    have hx := h x (List.mem_cons_self _ _)
    have hxs := ih (fun y hy => h y (List.mem_cons_of_mem _ hy))
    rw [List.map_cons, cat_cons, cat_append, hx, hxs, cat_cons]

/-- A successful `splitFirst` decomposes the string around the separator. -/
theorem splitFirst_eq_some (sep s b a : Str)
    (h : splitFirst sep s = some (b, a)) : s = b ++ sep ++ a := by
  induction s generalizing b with
  | nil =>
    unfold splitFirst at h
    by_cases hp : sep.isPrefixOf ([] : Str)
    · have hsep : sep = [] := List.prefix_nil.mp ( List.isPrefixOf_iff_prefix.mp hp)
      rw [if_pos hp] at h
      injection h with h1
      cases h1
      simp [hsep]
    · rw [if_neg hp] at h
      exact absurd h (by simp)
  | cons c cs ih =>
    unfold splitFirst at h
    by_cases hp : sep.isPrefixOf (c :: cs)
    · rw [if_pos hp] at h
      injection h with h1
      cases h1
      obtain ⟨t, ht⟩ := List.isPrefixOf_iff_prefix.mp hp
      rw [← ht, List.drop_left]
      simp
    · rw [if_neg hp] at h
      rcases hsp : splitFirst sep cs with _ | ⟨b2, a2⟩
      · rw [hsp] at h
        exact absurd h (by simp)
      · rw [hsp] at h
        simp only [Option.map_some'] at h
        injection h with h1
        cases h1
        simp [ih b2 hsp]

/-- The remainder of a successful split is strictly shorter. -/
theorem splitFirst_some_length (sep s b a : Str)
    (h : splitFirst sep s = some (b, a)) (hsep : sep ≠ []) :
    a.length < s.length := by
  have hd := splitFirst_eq_some sep s b a h
  have hl := congrArg List.length hd
  simp only [List.length_append] at hl
  have hs : 1 ≤ sep.length := List.length_pos.mpr hsep
  omega

/-- `splitSepF` never returns the empty list. -/
theorem splitSepF_ne_nil (fuel : ℕ) (sep s : Str) : splitSepF fuel sep s ≠ [] := by
  cases fuel with
  | zero => simp [splitSepF]
  | succ fuel =>
    rcases h : splitFirst sep s with _ | ⟨b, a⟩ <;> simp [splitSepF, h]

/-- Splitting and re-attaching the separator loses nothing. -/
theorem splitSepF_cover (sep : Str) (hsep : sep ≠ []) :
    ∀ (fuel : ℕ) (s : Str), s.length < fuel →
      cat (attachSep sep (splitSepF fuel sep s)) = s := by
  intro fuel
  induction fuel with
  | zero => intro s hs; exact absurd hs (Nat.not_lt_zero _)
  | succ fuel ih =>
    intro s hs
    rcases hsp : splitFirst sep s with _ | ⟨b, a⟩
    · simp [splitSepF, hsp, attachSep, cat]
    · have hd := splitFirst_eq_some sep s b a hsp
      have hlen := splitFirst_some_length sep s b a hsp hsep
      have ha : a.length < fuel := by omega
      simp only [splitSepF, hsp]
      rcases hq : splitSepF fuel sep a with _ | ⟨q, qs⟩
      · exact absurd hq (splitSepF_ne_nil fuel sep a)
      · have ihb := ih a ha
        rw [hq] at ihb
        show cat ((b ++ sep) :: attachSep sep (q :: qs)) = s
        show (b ++ sep) ++ cat (attachSep sep (q :: qs)) = s
        rw [ihb, hd]

/-- Coverage of the recursive splitter: the atomic pieces concatenate back
to the segment. -/
theorem splitAtomic_cat (M : ℕ) (seps : List Str) (seg : Str) :
    cat (splitAtomic M seps seg) = seg := by
  induction seps generalizing seg with
  | nil => simp [splitAtomic, cat]
  | cons sep rest ih =>
    by_cases hsep : sep = []
    · simp [splitAtomic, hsep, cat_singletons]
    · by_cases hnone : (splitFirst sep seg).isNone
      · simp [splitAtomic, hsep, hnone, ih]
      · simp only [splitAtomic, if_neg hsep, if_neg hnone]
        have hparts : ∀ x ∈ attachSep sep (splitSep sep seg),
            cat (if M < x.length then splitAtomic M rest x else [x]) = x := by
          intro x hx
          by_cases hlong : M < x.length
          · simp [hlong, ih]
          · simp [hlong, cat]
        rw [cat_cat_map _ _ hparts]
        exact splitSepF_cover sep hsep (seg.length + 1) seg (Nat.lt_succ_self _)

/-- Length bound on the atomic pieces: with the character-level fallback
present, every piece fits in `max_chars` (for `max_chars ≥ 1`). -/
theorem splitAtomic_length_le (M : ℕ) (hM : 1 ≤ M) (seps : List Str) (seg : Str)
    (hmem : ([] : Str) ∈ seps) : ∀ p ∈ splitAtomic M seps seg, p.length ≤ M := by
  induction seps generalizing seg with
  | nil => simp at hmem
  | cons sep rest ih =>
    intro p hp
    by_cases hsep : sep = []
    · rw [splitAtomic, if_pos hsep] at hp
      obtain ⟨c, _, rfl⟩ := List.mem_map.mp hp
      simpa using hM
    · have hmem2 : ([] : Str) ∈ rest := by
        rcases List.mem_cons.mp hmem with he | he
        · exact absurd he.symm hsep
        · exact he
      by_cases hnone : (splitFirst sep seg).isNone
      · rw [splitAtomic, if_neg hsep, if_pos hnone] at hp
        exact ih seg hmem2 p hp
      · rw [splitAtomic, if_neg hsep, if_neg hnone] at hp
        obtain ⟨blk, hblk, hpblk⟩ := (mem_cat _ _).mp hp
        obtain ⟨part, hpart, rfl⟩ := List.mem_map.mp hblk
        by_cases hlong : M < part.length
        · rw [if_pos hlong] at hpblk
          exact ih part hmem2 p hpblk
        · rw [if_neg hlong] at hpblk
          rw [List.mem_singleton.mp hpblk]
          omega

/-- `strip` never lengthens a string. -/
theorem pyStrip_length_le (s : Str) : (pyStrip s).length ≤ s.length := by
  unfold pyStrip
  calc ((s.dropWhile isSpaceChar).reverse.dropWhile isSpaceChar).reverse.length
      = ((s.dropWhile isSpaceChar).reverse.dropWhile isSpaceChar).length := by simp
    _ ≤ (s.dropWhile isSpaceChar).reverse.length := lensDropWhile_le _ _
    _ = (s.dropWhile isSpaceChar).length := by simp
    _ ≤ s.length := lensDropWhile_le _ _

/-- The overlap backtrack reports the length of the buffer it builds. -/
theorem overlapSeed_len (ov : ℕ) (l : List Str) (len : ℕ) (acc : List Str)
    (hinv : len = (cat acc).length) :
    (overlapSeed ov l len acc).2 = (cat (overlapSeed ov l len acc).1).length := by
  induction l generalizing len acc with
  | nil => simpa [overlapSeed] using hinv
  | cons p ps ih =>
    by_cases hc : len < ov
    · rw [overlapSeed, if_pos hc]
      exact ih (len + p.length) (p :: acc) (by simp [cat_cons, hinv]; omega)
    · rw [overlapSeed, if_neg hc]
      exact hinv

/-- The overlap backtrack either keeps its running length or stays below
`overlap` plus one piece. -/
theorem overlapSeed_bound (ov : ℕ) (l : List Str) (len : ℕ) (acc : List Str)
    (K : ℕ) (hK : ∀ p ∈ l, p.length ≤ K) :
    (overlapSeed ov l len acc).2 = len ∨ (overlapSeed ov l len acc).2 < ov + K := by
  induction l generalizing len acc with
  | nil => exact Or.inl rfl
  | cons p ps ih =>
    by_cases hc : len < ov
    · rw [overlapSeed, if_pos hc]
      have hp : p.length ≤ K := hK p (List.mem_cons_self _ _)
      rcases ih (len + p.length) (p :: acc)
          (fun q hq => hK q (List.mem_cons_of_mem _ hq)) with he | he
      · exact Or.inr (by omega)
      · exact Or.inr he
    · rw [overlapSeed, if_neg hc]
      exact Or.inl rfl

/-- Pieces the overlap backtrack keeps come from its inputs. -/
theorem overlapSeed_subset (ov : ℕ) (l : List Str) (len : ℕ) (acc : List Str) :
    ∀ q ∈ (overlapSeed ov l len acc).1, q ∈ l ∨ q ∈ acc := by
  induction l generalizing len acc with
  | nil =>
    intro q hq
    exact Or.inr (by simpa [overlapSeed] using hq)
  | cons p ps ih =>
    intro q hq
    by_cases hc : len < ov
    · rw [overlapSeed, if_pos hc] at hq
      rcases ih (len + p.length) (p :: acc) q hq with hl | ha
      · exact Or.inl (List.mem_cons_of_mem _ hl)
      · rcases List.mem_cons.mp ha with he | he
        · exact Or.inl (he ▸ List.mem_cons_self _ _)
        · exact Or.inr he
    · rw [overlapSeed, if_neg hc] at hq
      exact Or.inr hq

/-- Chunk bound of the merge loop: with every piece at most `max_chars`
(`max_chars ≥ 1`) and the running buffer within `overlap + 2*max_chars - 1`,
every emitted chunk stays within `overlap + 2*max_chars - 1`. -/
theorem mergeGo_length_le (M ov : ℕ) (hM : 1 ≤ M) (pieces : List Str)
    (hK : ∀ p ∈ pieces, p.length ≤ M) (buffer : List Str) (cur : ℕ)
    (hcur : cur = (cat buffer).length) (hbound : cur + 1 ≤ ov + 2 * M)
    (hbuf : ∀ p ∈ buffer, p.length ≤ M) :
    ∀ c ∈ mergeGo M ov pieces buffer cur, c.length + 1 ≤ ov + 2 * M := by
  induction pieces generalizing buffer cur with
  | nil =>
    intro c hc
    rw [mergeGo] at hc
    by_cases he : pyStrip (cat buffer) = []
    · simp [he] at hc
    · rw [if_neg he] at hc
      rw [List.mem_singleton.mp hc]
      have := pyStrip_length_le (cat buffer)
      omega
  | cons p ps ih =>
    intro c hc
    have hp : p.length ≤ M := hK p (List.mem_cons_self _ _)
    have hKps : ∀ q ∈ ps, q.length ≤ M := fun q hq => hK q (List.mem_cons_of_mem _ hq)
    rw [mergeGo] at hc
    by_cases hemit : M < cur + p.length ∧ buffer ≠ []
    · rw [if_pos hemit] at hc
      have hseed := overlapSeed_len ov buffer.reverse 0 [] (by simp [cat_nil])
      have hsb : ∀ q ∈ (overlapSeed ov buffer.reverse 0 []).1, q.length ≤ M := by
        intro q hq
        rcases overlapSeed_subset ov buffer.reverse 0 [] q hq with hl | ha
        · exact hbuf q (List.mem_reverse.mp hl)
        · simp at ha
      have hsbound : (overlapSeed ov buffer.reverse 0 []).2 = 0 ∨
          (overlapSeed ov buffer.reverse 0 []).2 < ov + M :=
        overlapSeed_bound ov buffer.reverse 0 [] M
          (fun q hq => hbuf q (List.mem_reverse.mp hq))
      have hcur2 : (overlapSeed ov buffer.reverse 0 []).2 + p.length =
          (cat ((overlapSeed ov buffer.reverse 0 []).1 ++ [p])).length := by
        rw [cat_append, cat_cons, cat_nil, List.length_append, ← hseed]
        simp
      have hb2 : (overlapSeed ov buffer.reverse 0 []).2 + p.length + 1 ≤ ov + 2 * M := by
        rcases hsbound with he | he <;> omega
      have hbuf2 : ∀ q ∈ (overlapSeed ov buffer.reverse 0 []).1 ++ [p], q.length ≤ M := by
        intro q hq
        rcases List.mem_append.mp hq with hql | hqr
        · exact hsb q hql
        · rw [List.mem_singleton.mp hqr]; exact hp
      have htail := ih hKps ((overlapSeed ov buffer.reverse 0 []).1 ++ [p]) _
        hcur2 hb2 hbuf2
      by_cases he : pyStrip (cat buffer) = []
      · rw [if_pos he] at hc
        exact htail c hc
      · rw [if_neg he] at hc
        rcases List.mem_cons.mp hc with hce | hce
        · rw [hce]
          have := pyStrip_length_le (cat buffer)
          omega
        · exact htail c hce
    · rw [if_neg hemit] at hc
      have hnew : cur + p.length = (cat (buffer ++ [p])).length := by
        rw [cat_append, cat_cons, cat_nil, List.length_append, hcur]
        simp
      have hb2 : cur + p.length + 1 ≤ ov + 2 * M := by
        rcases Decidable.not_and_iff_or_not.mp hemit with hn | hn
        · omega
        · have hbe : buffer = [] := Decidable.not_not.mp hn
          have : cur = 0 := by
            rw [hcur, hbe, cat_nil]
            rfl
          omega
      have hbuf2 : ∀ q ∈ buffer ++ [p], q.length ≤ M := by
        intro q hq
        rcases List.mem_append.mp hq with hql | hqr
        · exact hbuf q hql
        · rw [List.mem_singleton.mp hqr]; exact hp
      exact ih hKps (buffer ++ [p]) _ hnew hb2 hbuf2 c hc

/-- Chunk bound of the merge loop with no overlap: every chunk fits in
`max_chars`. -/
theorem mergeGo_length_le_zero (M : ℕ) (pieces : List Str)
    (hK : ∀ p ∈ pieces, p.length ≤ M) (buffer : List Str) (cur : ℕ)
    (hcur : cur = (cat buffer).length) (hbound : cur ≤ M) :
    ∀ c ∈ mergeGo M 0 pieces buffer cur, c.length ≤ M := by
  induction pieces generalizing buffer cur with
  | nil =>
    intro c hc
    rw [mergeGo] at hc
    by_cases he : pyStrip (cat buffer) = []
    · simp [he] at hc
    · rw [if_neg he] at hc
      rw [List.mem_singleton.mp hc]
      have := pyStrip_length_le (cat buffer)
      omega
  | cons p ps ih =>
    intro c hc
    have hp : p.length ≤ M := hK p (List.mem_cons_self _ _)
    have hKps : ∀ q ∈ ps, q.length ≤ M := fun q hq => hK q (List.mem_cons_of_mem _ hq)
    rw [mergeGo] at hc
    by_cases hemit : M < cur + p.length ∧ buffer ≠ []
    · rw [if_pos hemit] at hc
      have hseed0 : overlapSeed 0 buffer.reverse 0 [] = ([], 0) := by
        cases buffer.reverse with
        | nil => rfl
        | cons q qs => rw [overlapSeed, if_neg (by omega)]
      have htail := ih hKps ([] ++ [p]) (0 + p.length)
        (by simp [cat_append, cat_cons, cat_nil]) (by omega)
      rw [hseed0] at hc
      by_cases he : pyStrip (cat buffer) = []
      · rw [if_pos he] at hc
        exact htail c hc
      · rw [if_neg he] at hc
        rcases List.mem_cons.mp hc with hce | hce
        · rw [hce]
          have := pyStrip_length_le (cat buffer)
          omega
        · exact htail c hce
    · rw [if_neg hemit] at hc
      have hnew : cur + p.length = (cat (buffer ++ [p])).length := by
        rw [cat_append, cat_cons, cat_nil, List.length_append, hcur]
        simp
      have hb2 : cur + p.length ≤ M := by
        rcases Decidable.not_and_iff_or_not.mp hemit with hn | hn
        · omega
        · have hbe : buffer = [] := Decidable.not_not.mp hn
          have : cur = 0 := by
            rw [hcur, hbe, cat_nil]
            rfl
          omega
      exact ih hKps (buffer ++ [p]) _ hnew hb2 c hc

/-- C4 (corrected): for `max_chars ≥ 1` the character-level fallback means
no atomic piece ever exceeds `max_chars` (the claimed verbatim exception is
vacuous), but merged chunks can: the overlap re-seed plus the triggering
piece may reach `overlap + 2*max_chars - 1` characters.  Every chunk
satisfies `len(c) + 1 ≤ overlap + 2*max_chars`, and with `overlap = 0` the
claimed bound `len(c) ≤ max_chars` does hold. -/
theorem chunk_text_length_bound (text : Str) (max_chars overlap : ℕ)
    (hM : 1 ≤ max_chars) :
    (∀ c ∈ chunk_text text max_chars overlap,
      c.length + 1 ≤ overlap + 2 * max_chars) ∧
    (overlap = 0 → ∀ c ∈ chunk_text text max_chars overlap,
      c.length ≤ max_chars) := by
  by_cases htext : text = []
  · simp [chunk_text, htext]
  · have hpieces : ∀ p ∈ splitAtomic max_chars SEPARATORS text, p.length ≤ max_chars :=
      splitAtomic_length_le max_chars hM SEPARATORS text (by simp [SEPARATORS])
    constructor
    · intro c hc
      rw [chunk_text, if_neg htext] at hc
      exact mergeGo_length_le max_chars overlap hM _ hpieces [] 0
        (by simp [cat_nil]) (by omega) (by simp) c hc
    · intro hov c hc
      rw [chunk_text, if_neg htext, hov] at hc
      exact mergeGo_length_le_zero max_chars _ hpieces [] 0
        (by simp [cat_nil]) (by omega) c hc

/-- C4 counterexample: `chunk_text("abcde wxyz", max_chars=7, overlap=6)`
(`0 ≤ overlap < max_chars`) produces the chunk `"abcde wxyz"` of length
10 > 7, and that chunk is not an atomic unsplittable piece — it is the
overlap re-seed (`"abcde "`) merged with the triggering piece (`"wxyz"`),
each of which fits in `max_chars`. -/
theorem chunk_text_bound_counterexample :
    (6 < 7) ∧
    ∃ c ∈ chunk_text "abcde wxyz".toList 7 6,
      7 < c.length ∧ c ∉ splitAtomic 7 SEPARATORS "abcde wxyz".toList := by
  decide

/-- Witness for `chunk_text_length_bound` at a concrete text that splits
and overlaps. -/
theorem chunk_text_length_bound_witness :
    1 ≤ 3 ∧
    ((∀ c ∈ chunk_text "ab cd".toList 3 1, c.length + 1 ≤ 1 + 2 * 3) ∧
     (1 = 0 → ∀ c ∈ chunk_text "ab cd".toList 3 1, c.length ≤ 3)) :=
  ⟨by decide, chunk_text_length_bound "ab cd".toList 3 1 (by decide)⟩

/-- Every chunk the merge loop emits is non-empty. -/
theorem mergeGo_ne_nil (M ov : ℕ) (pieces buffer : List Str) (cur : ℕ) :
    ∀ c ∈ mergeGo M ov pieces buffer cur, c ≠ [] := by
  induction pieces generalizing buffer cur with
  | nil =>
    intro c hc
    rw [mergeGo] at hc
    by_cases he : pyStrip (cat buffer) = []
    · simp [he] at hc
    · rw [if_neg he] at hc
      rw [List.mem_singleton.mp hc]
      exact he
  | cons p ps ih =>
    intro c hc
    rw [mergeGo] at hc
    by_cases hemit : M < cur + p.length ∧ buffer ≠ []
    · rw [if_pos hemit] at hc
      by_cases he : pyStrip (cat buffer) = []
      · rw [if_pos he] at hc
        exact ih _ _ c hc
      · rw [if_neg he] at hc
        rcases List.mem_cons.mp hc with hce | hce
        · exact hce ▸ he
        · exact ih _ _ c hce
    · rw [if_neg hemit] at hc
      exact ih _ _ c hc

/-- The merge loop equals its ghost variant: the chunks are the non-empty
strips of the recorded buffers. -/
theorem mergeGo_eq_groups (M ov : ℕ) (pieces buffer newP : List Str) (cur : ℕ)
    (hcur : cur = (cat buffer).length) :
    mergeGo M ov pieces buffer cur =
      ((groupsGo M ov pieces buffer newP).map (fun g => pyStrip (cat g.1))).filter
        (fun c => !c.isEmpty) := by
  induction pieces generalizing buffer newP cur with
  | nil =>
    rw [mergeGo, groupsGo]
    simp only [List.map_cons, List.map_nil, List.filter_cons, List.filter_nil]
    by_cases he : pyStrip (cat buffer) = []
    · simp [he]
    · simp [he, List.isEmpty_iff]
  | cons p ps ih =>
    rw [mergeGo, groupsGo, ← hcur]
    by_cases hemit : M < cur + p.length ∧ buffer ≠ []
    · rw [if_pos hemit, if_pos hemit]
      have hseed := overlapSeed_len ov buffer.reverse 0 [] (by simp [cat_nil])
      have hcur2 : (overlapSeed ov buffer.reverse 0 []).2 + p.length =
          (cat ((overlapSeed ov buffer.reverse 0 []).1 ++ [p])).length := by
        rw [cat_append, cat_cons, cat_nil, List.length_append, ← hseed]
        simp
      have htail := ih ((overlapSeed ov buffer.reverse 0 []).1 ++ [p]) [p] _ hcur2
      dsimp only
      rw [htail]
      simp only [List.map_cons, List.filter_cons]
      by_cases he : pyStrip (cat buffer) = []
      · simp [he]
      · simp [he, List.isEmpty_iff]
    · rw [if_neg hemit, if_neg hemit]
      exact ih (buffer ++ [p]) (newP ++ [p]) _
        (by rw [cat_append, cat_cons, cat_nil, List.length_append, hcur]; simp)

/-- The recorded new (non-overlap) pieces of the ghost merge loop
concatenate to the pending new content plus all remaining pieces. -/
theorem groupsGo_news (M ov : ℕ) (pieces buffer newP : List Str) :
    cat ((groupsGo M ov pieces buffer newP).map (fun g => cat g.2)) =
      cat newP ++ cat pieces := by
  induction pieces generalizing buffer newP with
  | nil => simp [groupsGo, cat_cons, cat_nil]
  | cons p ps ih =>
    rw [groupsGo]
    by_cases hemit : M < (cat buffer).length + p.length ∧ buffer ≠ []
    · rw [if_pos hemit]
      simp only [List.map_cons, cat_cons]
      rw [ih]
      simp [cat_cons, cat_nil, cat_append, List.append_assoc]
    · rw [if_neg hemit]
      rw [ih]
      simp [cat_cons, cat_nil, cat_append, List.append_assoc]

/-- Every recorded buffer of the ghost merge loop splits into an overlap
part followed by its new pieces. -/
theorem groupsGo_split (M ov : ℕ) (pieces buffer newP s0 : List Str)
    (hb : buffer = s0 ++ newP) :
    ∀ g ∈ groupsGo M ov pieces buffer newP, ∃ s, g.1 = s ++ g.2 := by
  induction pieces generalizing buffer newP s0 with
  | nil =>
    intro g hg
    rw [groupsGo] at hg
    rw [List.mem_singleton.mp hg]
    exact ⟨s0, hb⟩
  | cons p ps ih =>
    intro g hg
    rw [groupsGo] at hg
    by_cases hemit : M < (cat buffer).length + p.length ∧ buffer ≠ []
    · rw [if_pos hemit] at hg
      rcases List.mem_cons.mp hg with hge | hge
      · rw [hge]
        exact ⟨s0, hb⟩
      · exact ih ((overlapSeed ov buffer.reverse 0 []).1 ++ [p]) [p]
          (overlapSeed ov buffer.reverse 0 []).1 rfl g hge
    · rw [if_neg hemit] at hg
      exact ih (buffer ++ [p]) (newP ++ [p]) s0
        (by rw [hb, List.append_assoc]) g hg

/-- C5 (confirmed): empty input chunks to nothing; every chunk is
non-empty; and the chunks decompose into (overlap, new-content) pairs —
each chunk is the whitespace-stripped concatenation of its overlap region
(re-seeded from the previous buffer) and its new content, whitespace-only
groups being dropped — whose new contents concatenate exactly to the
original text. -/
theorem chunk_text_coverage (text : Str) (max_chars overlap : ℕ) :
    (text = [] → chunk_text text max_chars overlap = []) ∧
    (∀ c ∈ chunk_text text max_chars overlap, c ≠ []) ∧
    ∃ groups : List (Str × Str),
      chunk_text text max_chars overlap =
        (groups.map (fun g => pyStrip (g.1 ++ g.2))).filter (fun c => !c.isEmpty) ∧
      cat (groups.map Prod.snd) = text := by
  by_cases htext : text = []
  · refine ⟨fun _ => by simp [chunk_text, htext], ?_, ⟨[], by simp [chunk_text, htext], by simp [cat_nil, htext]⟩⟩
    intro c hc
    simp [chunk_text, htext] at hc
  · refine ⟨fun hc => absurd hc htext, ?_, ?_⟩
    · intro c hc
      rw [chunk_text, if_neg htext] at hc
      exact mergeGo_ne_nil _ _ _ _ _ c hc
    · refine ⟨(groupsGo max_chars overlap (splitAtomic max_chars SEPARATORS text) [] []).map
        (fun g => (cat (g.1.take (g.1.length - g.2.length)), cat g.2)), ?_, ?_⟩
      · rw [chunk_text, if_neg htext]
        rw [mergeGo_eq_groups max_chars overlap _ [] [] 0 (by simp [cat_nil])]
        rw [List.map_map]
        refine congrArg _ (List.map_congr_left (fun g hg => ?_))
        obtain ⟨s, hs⟩ := groupsGo_split max_chars overlap _ [] [] [] rfl g hg
        have htake : g.1.take (g.1.length - g.2.length) = s := by
          rw [hs, List.length_append, Nat.add_sub_cancel, List.take_left]
        simp only [Function.comp_apply, htake]
        rw [hs, cat_append]
      · rw [List.map_map]
        have hn := groupsGo_news max_chars overlap
          (splitAtomic max_chars SEPARATORS text) [] []
        have heq : ((groupsGo max_chars overlap (splitAtomic max_chars SEPARATORS text)
            [] []).map (Prod.snd ∘ (fun g => (cat (g.1.take (g.1.length - g.2.length)), cat g.2)))) =
            ((groupsGo max_chars overlap (splitAtomic max_chars SEPARATORS text)
            [] []).map (fun g => cat g.2)) := rfl
        rw [heq, hn, cat_nil, List.nil_append]
        exact splitAtomic_cat max_chars SEPARATORS text

/-- Witness for `chunk_text_coverage` at a concrete splitting input. -/
theorem chunk_text_coverage_witness :
    ("ab cd".toList = [] → chunk_text "ab cd".toList 3 1 = []) ∧
    (∀ c ∈ chunk_text "ab cd".toList 3 1, c ≠ []) ∧
    ∃ groups : List (Str × Str),
      chunk_text "ab cd".toList 3 1 =
        (groups.map (fun g => pyStrip (g.1 ++ g.2))).filter (fun c => !c.isEmpty) ∧
      cat (groups.map Prod.snd) = "ab cd".toList :=
  chunk_text_coverage "ab cd".toList 3 1
